import Mathlib

/-! The RLP codec of ethutil (`rlp.go`).

A shallow embedding of the integer codec (`BinaryLength`, `ToBinarySlice`, `ToBin`,
`FromBin`), the encoder `Encode`, the decoder `Decode` and the accessor type
`RlpDataAttribute`, followed by the properties proved about them.

Conventions of the embedding

* A Go `byte` is a `Fin 256`; the conversion `byte(x)` is reduction modulo 256.
* A Go `uint64` is a natural number below `2 ^ 64`; every `uint64` operation that can
  wrap is followed by `% 2 ^ 64` (`u64`).
* A Go `[]byte` that is read through index and slice expressions is a `ByteSlice`: its
  elements up to `len` and the elements of its backing array between `len` and `cap`
  (an index expression is checked against `len`, a slice expression against `cap`).
* A Go `interface{}` is an `Obj`, one constructor per dynamic type the code tells apart.
* A Go panic is the result `Result.panic`.
-/

namespace Ethutil

/-- Go `byte` (`uint8`). -/
abbrev Byte := Fin 256

/-- Go conversion `byte(x)` of a non-negative integer. -/
def toByte (x : Nat) : Byte := ⟨x % 256, Nat.mod_lt x (by decide)⟩

/-- Wrap-around of `uint64` arithmetic. -/
def u64 (x : Nat) : Nat := x % 2 ^ 64

/-- Go `interface{}` values, by dynamic type. `other` stands for every dynamic type that
no type switch or type assertion of `rlp.go` mentions. -/
inductive Obj where
  | nil
  | int (t : Int)
  | uint8 (b : Byte)
  | uint16 (n : Nat)
  | uint32 (n : Nat)
  | uint64 (n : Nat)
  | bigInt (x : Option Int)
  | string (s : List Byte)
  | bytes (s : List Byte)
  | slice (xs : List Obj)
  | strings (xs : List (List Byte))
  | other

/-! ## Integer codec -/

/-- Recursion of `BinaryLength`, with the number of remaining calls bounded by `fuel`. -/
def BinaryLengthAux : Nat → Nat → Nat
  | 0, _ => 0
  | fuel + 1, n => if n = 0 then 0 else 1 + BinaryLengthAux fuel (n / 256)

/-- Source `BinaryLength(n uint64) uint64`. The argument strictly decreases at every call, so
`n` calls are enough (`BinaryLength_eq` is the recursion equation of the source). -/
def BinaryLength (n : Nat) : Nat := BinaryLengthAux n n

/-- Recursion of `ToBinarySlice`, with the number of remaining calls bounded by `fuel`. The
parameter `length` is only ever assigned to, as in the source. -/
def ToBinarySliceAux : Nat → Nat → Nat → List Nat
  | 0, _, _ => []
  | fuel + 1, n, length =>
    let _length := if length = 0 then BinaryLength n else length
    if n = 0 then [] else ToBinarySliceAux fuel (n / 256) 0 ++ [n % 256]

/-- Source `ToBinarySlice(n uint64, length uint64) []uint64`. -/
def ToBinarySlice (n length : Nat) : List Nat := ToBinarySliceAux n n length

/-- Source `ToBin(n uint64, length uint64) string`: every element is written as `byte(val)`. -/
def ToBin (n length : Nat) : List Byte := (ToBinarySlice n length).map toByte

/-- Recursion of `FromBin`, with the number of remaining calls bounded by `fuel`. -/
def FromBinAux : Nat → List Byte → Nat
  | 0, _ => 0
  | fuel + 1, data =>
    if data.length = 0 then 0
    else u64 (FromBinAux fuel data.dropLast * 256 + (data.getLastD 0).val)

/-- Source `FromBin(data []byte) uint64`: the argument loses one byte per call, so
`len(data)` calls are enough (`FromBin_eq` is the recursion equation of the source). -/
def FromBin (data : List Byte) : Nat := FromBinAux data.length data

/-! ## Encoder -/

/-- Go conversion `string(x)` of an integer: the UTF-8 encoding of the code point `x`,
and of U+FFFD when `x` is not a valid code point. -/
def runeString (x : Nat) : List Byte :=
  if x < 0x80 then [toByte x]
  else if x < 0x800 then [toByte (0xC0 + x / 64), toByte (0x80 + x % 64)]
  else if 0xD800 ≤ x ∧ x < 0xE000 then [0xEF, 0xBF, 0xBD]
  else if x < 0x10000 then
    [toByte (0xE0 + x / 4096), toByte (0x80 + x / 64 % 64), toByte (0x80 + x % 64)]
  else if x < 0x110000 then
    [toByte (0xF0 + x / 262144), toByte (0x80 + x / 4096 % 64),
     toByte (0x80 + x / 64 % 64), toByte (0x80 + x % 64)]
  else [0xEF, 0xBF, 0xBD]

/-- Decimal digits of a natural number, most significant first, as ASCII. -/
def decimalDigits : Nat → Nat → List Byte
  | 0, _ => []
  | fuel + 1, n =>
    if n < 10 then [toByte (48 + n)] else decimalDigits fuel (n / 10) ++ [toByte (48 + n % 10)]

/-- Method `(*big.Int).String`: the decimal text, `-` first for a negative number, and the
text `<nil>` for a nil pointer. -/
def bigString : Option Int → List Byte
  | none => [60, 110, 105, 108, 62]
  | some x =>
    if x < 0 then 45 :: decimalDigits (x.natAbs + 1) x.natAbs
    else decimalDigits (x.natAbs + 1) x.natAbs

/-- The `uint32, uint64` case of `Encode`, on the number `num`. `pow256` is the value of the
Go expression `uint64(math.Pow(2, 256))`: the float `2^256` is not representable as a
`uint64`, and the Go specification leaves the result of such a conversion to the
implementation, so it is a parameter of the model. -/
def encodeUint (pow256 : Nat) (num : Nat) : List Byte :=
  if num < 24 then runeString num
  else if num ≤ pow256 then
    let b := ToBin num 0
    runeString (b.length + 23) ++ b
  else
    let b := ToBin num 0
    let b2 := ToBin (u64 b.length) 0
    runeString (b2.length + 55) ++ b2 ++ b

/-- The `string` case of `Encode`. -/
def encodeString (t : List Byte) : List Byte :=
  if t.length < 56 then runeString (t.length + 64) ++ t
  else
    let b2 := ToBin (u64 t.length) 0
    runeString (b2.length + 119) ++ b2 ++ t

/-- The closure `WriteSliceHeader` of `Encode`: the bytes it writes to the buffer. -/
def WriteSliceHeader (length : Nat) : List Byte :=
  if length < 56 then [toByte (length + 128)]
  else
    let b2 := ToBin (u64 length) 0
    toByte (b2.length + 183) :: b2

mutual
/-- Source `Encode(object interface{}) []byte`. The calls `Encode(uint32(t))`,
`Encode(t.String())`, `Encode(string(t))` and `Encode("")` are the `uint32` and `string`
cases on the converted argument; a dynamic type without a case writes nothing. -/
def Encode (pow256 : Nat) : Obj → List Byte
  | .nil => encodeString []
  | .int t => encodeUint pow256 (t % 2 ^ 32).toNat
  | .uint32 n => encodeUint pow256 n
  | .uint64 n => encodeUint pow256 n
  | .bigInt x => encodeString (bigString x)
  | .string t => encodeString t
  | .uint8 b => encodeUint pow256 b.val
  | .bytes t => encodeString t
  | .slice xs => WriteSliceHeader xs.length ++ EncodeAll pow256 xs
  | .strings xs => WriteSliceHeader xs.length ++ (xs.map encodeString).flatten
  | .uint16 _ => []
  | .other => []
/-- The loop `for _, val := range interSlice { buff.Write(Encode(val)) }`. -/
def EncodeAll (pow256 : Nat) : List Obj → List Byte
  | [] => []
  | val :: rest => Encode pow256 val ++ EncodeAll pow256 rest
end

/-! ## Decoder -/

/-- A `[]byte` as the decoder sees it: `content` are its elements (`len` of them) and
`spare` the elements of the backing array between `len` and `cap`. -/
structure ByteSlice where
  content : List Byte
  spare : List Byte

/-- Go `len(data)`. -/
def ByteSlice.len (data : ByteSlice) : Nat := data.content.length

/-- Go `cap(data)`. -/
def ByteSlice.cap (data : ByteSlice) : Nat := data.content.length + data.spare.length

/-- The backing array from the first element of the slice to its capacity. -/
def ByteSlice.arr (data : ByteSlice) : List Byte := data.content ++ data.spare

/-- Index expression `data[i]`: `none` is the run-time panic (index out of range). -/
def ByteSlice.index (data : ByteSlice) (i : Nat) : Option Byte := data.content[i]?

/-- Slice expression `data[lo:hi]`: `none` is the run-time panic (slice bounds out of
range), raised unless `lo <= hi <= cap(data)`. -/
def ByteSlice.slice (data : ByteSlice) (lo hi : Nat) : Option (List Byte) :=
  if lo ≤ hi ∧ hi ≤ data.cap then some ((data.arr.drop lo).take (hi - lo)) else none

/-- The ways the code panics: `log.Panicf` in `Decode`, the run-time panics of an index
and of a slice expression, and `panic("byte not supported ...")` in `Decode`. -/
inductive Panic where
  | logPanic
  | indexOutOfRange
  | sliceBounds
  | unsupported (char : Nat)
  deriving DecidableEq

/-- Outcome of running Go code: a returned value, a panic, or a recursion deeper than the
fuel given to the model. -/
inductive Result (α : Type) where
  | ok (a : α)
  | panic (p : Panic)
  | fuelOut

/-- The loop `for i := uint64(0); i < b; i++ { obj, pos = Decode(data, pos); slice =
append(slice, obj) }` followed by `return slice, pos`, with `dec` for `Decode(data, ·)`. -/
def decodeLoop (dec : Nat → Result (Obj × Nat)) : Nat → Nat → List Obj → Result (Obj × Nat)
  | 0, pos, slice => .ok (.slice slice, pos)
  | b + 1, pos, slice =>
    match dec pos with
    | .ok (obj, pos1) => decodeLoop dec b pos1 (slice ++ [obj])
    | .panic p => .panic p
    | .fuelOut => .fuelOut

/-- Source `Decode(data []byte, pos uint64) (interface{}, uint64)`, with the nesting depth of
the recursive calls bounded by `fuel`. -/
def DecodeAux : Nat → ByteSlice → Nat → Result (Obj × Nat)
  | 0, _, _ => .fuelOut
  | fuel + 1, data, pos =>
    if pos > u64 (data.len + 2 ^ 64 - 1) then .panic .logPanic
    else
      match data.index pos with
      | none => .panic .indexOutOfRange
      | some c =>
        let char := c.val
        if char < 24 then .ok (.uint8 c, u64 (pos + 1))
        else if char < 56 then
          let b := char - 23
          match data.slice (u64 (pos + 1)) (u64 (pos + 1 + b)) with
          | none => .panic .sliceBounds
          | some s => .ok (.uint64 (FromBin s), u64 (pos + 1 + b))
        else if char < 64 then
          let b := char - 55
          match data.slice (u64 (pos + 1)) (u64 (pos + 1 + b)) with
          | none => .panic .sliceBounds
          | some s =>
            let b2 := FromBin s
            match data.slice (u64 (pos + 1 + b)) (u64 (pos + 1 + b + b2)) with
            | none => .panic .sliceBounds
            | some s2 => .ok (.uint64 (FromBin s2), u64 (pos + 1 + b + b2))
        else if char < 120 then
          let b := char - 64
          match data.slice (u64 (pos + 1)) (u64 (pos + 1 + b)) with
          | none => .panic .sliceBounds
          | some s => .ok (.bytes s, u64 (pos + 1 + b))
        else if char < 128 then
          let b := char - 119
          match data.slice (u64 (pos + 1)) (u64 (pos + 1 + b)) with
          | none => .panic .sliceBounds
          | some s =>
            let b2 := FromBin s
            match data.slice (u64 (pos + 1 + b)) (u64 (pos + 1 + b + b2)) with
            | none => .panic .sliceBounds
            | some s2 => .ok (.bytes s2, u64 (pos + 1 + b + b2))
        else if char < 184 then
          let b := char - 128
          decodeLoop (DecodeAux fuel data) b (u64 (pos + 1)) []
        else if char < 192 then
          let b := char - 183
          decodeLoop (DecodeAux fuel data) b (u64 (pos + 1 + b)) []
        else .panic (.unsupported char)

/-- Source `Decode`. A recursive call is only made from a position inside the slice and at
a larger position, so `len(data) + 1` nested calls are never exceeded
(`Decode_ne_fuelOut`), and more fuel does not change a result (`DecodeAux_fuel_succ`). -/
def Decode (data : ByteSlice) (pos : Nat) : Result (Obj × Nat) :=
  DecodeAux (data.len + 1) data pos

/-! ## Accessor -/

/-- Source `RlpDataAttribute`; the field `kind` is never read and is left out. -/
structure RlpDataAttribute where
  dataAttrib : Obj

/-- Source `NewRlpDataAttribute`. -/
def NewRlpDataAttribute (attrib : Obj) : RlpDataAttribute := ⟨attrib⟩

/-- Source `(*RlpDataAttribute).AsUint`. -/
def RlpDataAttribute.AsUint (attr : RlpDataAttribute) : Nat :=
  match attr.dataAttrib with
  | .uint8 value => value.val
  | .uint16 value => value
  | .uint32 value => value
  | .uint64 value => value
  | _ => 0

/-- Source `(*RlpDataAttribute).IsNil`. -/
def RlpDataAttribute.IsNil (attr : RlpDataAttribute) : Bool :=
  match attr.dataAttrib with
  | .nil => true
  | _ => false

/-- Source `(*RlpDataAttribute).Length`. -/
def RlpDataAttribute.Length (attr : RlpDataAttribute) : Nat :=
  match attr.dataAttrib with
  | .slice data => data.length
  | _ => 0

/-- Source `(*RlpDataAttribute).AsByte`. -/
def RlpDataAttribute.AsByte (attr : RlpDataAttribute) : Byte :=
  match attr.dataAttrib with
  | .uint8 value => value
  | _ => 0

/-- Source `(*RlpDataAttribute).AsString`. -/
def RlpDataAttribute.AsString (attr : RlpDataAttribute) : List Byte :=
  match attr.dataAttrib with
  | .bytes a => a
  | .string a => a
  | _ => []

/-- Source `(*RlpDataAttribute).AsBytes`. -/
def RlpDataAttribute.AsBytes (attr : RlpDataAttribute) : List Byte :=
  match attr.dataAttrib with
  | .bytes a => a
  | _ => []

/-- Source `(*RlpDataAttribute).AsSlice`. -/
def RlpDataAttribute.AsSlice (attr : RlpDataAttribute) : List Obj :=
  match attr.dataAttrib with
  | .slice d => d
  | _ => []

/-- Source `(*RlpDataAttribute).Get(idx int)`: the guard is `len(d) < idx`, and the index
expression `d[idx]` panics when `idx` is negative or not below `len(d)`. -/
def RlpDataAttribute.Get (attr : RlpDataAttribute) (idx : Int) : Result RlpDataAttribute :=
  match attr.dataAttrib with
  | .slice d =>
    if (d.length : Int) < idx then .ok (NewRlpDataAttribute .nil)
    else if idx < 0 then .panic .indexOutOfRange
    else
      match d[idx.toNat]? with
      | some item => .ok (NewRlpDataAttribute item)
      | none => .panic .indexOutOfRange
  | _ => .ok (NewRlpDataAttribute .nil)

/-- Source `NewRlpDecoder(rlpData []byte)`: a panic of `Decode` propagates. -/
def NewRlpDecoder (rlpData : ByteSlice) : Result RlpDataAttribute :=
  if rlpData.len ≠ 0 then
    match Decode rlpData 0 with
    | .ok (data, _) => .ok (NewRlpDataAttribute data)
    | .panic p => .panic p
    | .fuelOut => .fuelOut
  else .ok (NewRlpDataAttribute .nil)

/-! ## Values of the implementation-dependent conversion -/

/-- The value of `uint64(math.Pow(2, 256))` in code compiled by gc for amd64: the
conversion of a float at or above `2^63` subtracts `2^63`, converts with `CVTTSD2SQ`, which
yields `0x8000000000000000` for an operand out of range, and sets the top bit again. -/
def pow256Amd64 : Nat := 2 ^ 63

/-- The value of `uint64(math.Pow(2, 256))` where the conversion saturates (arm64). -/
def pow256Saturating : Nat := 2 ^ 64 - 1

/-! ## Specification-side definitions -/

mutual
/-- The value model of the specification: a single byte, an unsigned 64-bit integer, a byte
string, or a list of such values. -/
def Obj.isValue : Obj → Bool
  | .uint8 _ => true
  | .uint64 n => decide (n < 2 ^ 64)
  | .bytes _ => true
  | .slice xs => Obj.allValues xs
  | _ => false
/-- Every element is a value of the value model. -/
def Obj.allValues : List Obj → Bool
  | [] => true
  | x :: xs => Obj.isValue x && Obj.allValues xs
end

mutual
/-- No list inside the value (the value itself included) has 56 or more items. -/
def Obj.shortLists : Obj → Bool
  | .slice xs => decide (xs.length < 56) && Obj.allShortLists xs
  | _ => true
/-- No list inside any element has 56 or more items. -/
def Obj.allShortLists : List Obj → Bool
  | [] => true
  | x :: xs => Obj.shortLists x && Obj.allShortLists xs
end

mutual
/-- Nesting depth of lists in a value. -/
def Obj.depth : Obj → Nat
  | .slice xs => 1 + Obj.depthAll xs
  | _ => 0
/-- Largest nesting depth among the elements. -/
def Obj.depthAll : List Obj → Nat
  | [] => 0
  | x :: xs => max (Obj.depth x) (Obj.depthAll xs)
end

mutual
/-- The value with every integer leaf in the dynamic type the decoder gives it: a number
below 24 is a `byte`, any other number a `uint64`. Byte strings and the list structure are
unchanged. -/
def Obj.decoded : Obj → Obj
  | .uint8 b => if b.val < 24 then .uint8 b else .uint64 b.val
  | .uint64 n => if n < 24 then .uint8 (toByte n) else .uint64 n
  | .slice xs => .slice (Obj.decodedAll xs)
  | v => v
/-- Elementwise `Obj.decoded`. -/
def Obj.decodedAll : List Obj → List Obj
  | [] => []
  | x :: xs => Obj.decoded x :: Obj.decodedAll xs
end

/-- The number a decimal text denotes: its ASCII digits read most significant first. -/
def decimalValue (text : List Byte) : Nat :=
  text.foldl (fun acc d => acc * 10 + (d.val - 48)) 0

/-- The value of a byte sequence read as a big-endian number, in the words of the
specification: the sum of `d[i] * 256 ^ (len(d) - 1 - i)`. -/
def bigEndianSum (d : List Byte) : Nat :=
  ((List.range d.length).map (fun i => (d.getD i 0).val * 256 ^ (d.length - 1 - i))).sum

/-! ## Integer codec: recursion equations -/

theorem BinaryLengthAux_fuel (fuel n : Nat) (h : n ≤ fuel) :
    BinaryLengthAux fuel n = BinaryLengthAux n n := by
  induction fuel using Nat.strong_induction_on generalizing n with
  | _ fuel ih =>
    rcases Nat.eq_zero_or_pos n with h0 | hpos
    · subst h0
      cases fuel <;> simp [BinaryLengthAux]
    · obtain ⟨f, rfl⟩ : ∃ f, fuel = f + 1 := ⟨fuel - 1, by omega⟩
      obtain ⟨m, rfl⟩ : ∃ m, n = m + 1 := ⟨n - 1, by omega⟩
      have hd : (m + 1) / 256 ≤ m := by omega
      simp only [BinaryLengthAux, Nat.succ_ne_zero, if_false]
      rw [ih f (by omega) _ (by omega), ih m (by omega) _ hd]

/-- The recursion equation of the source `BinaryLength`. -/
theorem BinaryLength_eq (n : Nat) :
    BinaryLength n = if n = 0 then 0 else 1 + BinaryLength (n / 256) := by
  unfold BinaryLength
  cases n with
  | zero => simp [BinaryLengthAux]
  | succ m =>
    have hd : (m + 1) / 256 ≤ m := by omega
    simp only [BinaryLengthAux, Nat.succ_ne_zero, if_false]
    rw [BinaryLengthAux_fuel m _ hd]

theorem ToBinarySliceAux_fuel (fuel n length : Nat) (h : n ≤ fuel) :
    ToBinarySliceAux fuel n length = ToBinarySliceAux n n 0 := by
  induction fuel using Nat.strong_induction_on generalizing n length with
  | _ fuel ih =>
    rcases Nat.eq_zero_or_pos n with h0 | hpos
    · subst h0
      cases fuel <;> simp [ToBinarySliceAux]
    · obtain ⟨f, rfl⟩ : ∃ f, fuel = f + 1 := ⟨fuel - 1, by omega⟩
      obtain ⟨m, rfl⟩ : ∃ m, n = m + 1 := ⟨n - 1, by omega⟩
      have hd : (m + 1) / 256 ≤ m := by omega
      simp only [ToBinarySliceAux, Nat.succ_ne_zero, if_false]
      rw [ih f (by omega) _ 0 (by omega), ih m (by omega) _ 0 hd]

/-- The recursion equation of the source `ToBinarySlice`. -/
theorem ToBinarySlice_eq (n length : Nat) :
    ToBinarySlice n length = if n = 0 then [] else ToBinarySlice (n / 256) 0 ++ [n % 256] := by
  unfold ToBinarySlice
  cases n with
  | zero => simp [ToBinarySliceAux]
  | succ m =>
    have hd : (m + 1) / 256 ≤ m := by omega
    simp only [ToBinarySliceAux, Nat.succ_ne_zero, if_false]
    rw [ToBinarySliceAux_fuel m _ 0 hd]

theorem FromBinAux_fuel (fuel : Nat) (data : List Byte) (h : data.length ≤ fuel) :
    FromBinAux fuel data = FromBinAux data.length data := by
  induction fuel using Nat.strong_induction_on generalizing data with
  | _ fuel ih =>
    rcases Nat.eq_zero_or_pos data.length with h0 | hpos
    · rw [h0]
      cases fuel <;> simp [FromBinAux, h0]
    · obtain ⟨f, rfl⟩ : ∃ f, fuel = f + 1 := ⟨fuel - 1, by omega⟩
      obtain ⟨m, hm⟩ : ∃ m, data.length = m + 1 := ⟨data.length - 1, by omega⟩
      have hl : data.dropLast.length = m := by simp [hm]
      rw [hm]
      simp only [FromBinAux, hm, Nat.succ_ne_zero, if_false]
      rw [ih f (by omega) _ (by omega), hl]

/-- The recursion equation of the source `FromBin`. -/
theorem FromBin_eq (data : List Byte) :
    FromBin data = if data.length = 0 then 0
      else u64 (FromBin data.dropLast * 256 + (data.getLastD 0).val) := by
  unfold FromBin
  rcases Nat.eq_zero_or_pos data.length with h0 | hpos
  · simp [h0, FromBinAux]
  · obtain ⟨m, hm⟩ : ∃ m, data.length = m + 1 := ⟨data.length - 1, by omega⟩
    have hl : data.dropLast.length = m := by simp [hm]
    rw [hm]
    simp only [FromBinAux, hm, Nat.succ_ne_zero, if_false, hl]

theorem FromBin_nil : FromBin [] = 0 := rfl

theorem FromBin_snoc (d : List Byte) (x : Byte) :
    FromBin (d ++ [x]) = u64 (FromBin d * 256 + x.val) := by
  rw [FromBin_eq]
  simp

/-! ## Integer codec: minimal big-endian form -/

theorem toByte_val (x : Nat) : (toByte x).val = x % 256 := rfl

theorem toByte_val_of_lt {x : Nat} (h : x < 256) : (toByte x).val = x := by
  rw [toByte_val, Nat.mod_eq_of_lt h]

theorem toByte_self (b : Byte) : toByte b.val = b :=
  Fin.ext (toByte_val_of_lt b.isLt)

theorem u64_of_lt {x : Nat} (h : x < 2 ^ 64) : u64 x = x := Nat.mod_eq_of_lt h

theorem BinaryLength_zero : BinaryLength 0 = 0 := rfl

theorem BinaryLength_pos {n : Nat} (h : 0 < n) :
    BinaryLength n = 1 + BinaryLength (n / 256) := by
  rw [BinaryLength_eq, if_neg (by omega)]

theorem ToBinarySlice_zero (length : Nat) : ToBinarySlice 0 length = [] := by
  rw [ToBinarySlice_eq, if_pos rfl]

theorem ToBinarySlice_pos {n : Nat} (h : 0 < n) (length : Nat) :
    ToBinarySlice n length = ToBinarySlice (n / 256) 0 ++ [n % 256] := by
  rw [ToBinarySlice_eq, if_neg (by omega)]

theorem ToBinarySlice_hint (n length : Nat) : ToBinarySlice n length = ToBinarySlice n 0 := by
  rw [ToBinarySlice_eq n length, ToBinarySlice_eq n 0]

theorem ToBinarySlice_length (n length : Nat) :
    (ToBinarySlice n length).length = BinaryLength n := by
  induction n using Nat.strong_induction_on generalizing length with
  | _ n ih =>
    rcases Nat.eq_zero_or_pos n with h0 | hpos
    · subst h0
      rw [ToBinarySlice_zero, BinaryLength_zero]
      rfl
    · rw [ToBinarySlice_pos hpos, BinaryLength_pos hpos, List.length_append,
        ih (n / 256) (Nat.div_lt_self hpos (by decide)) 0]
      simp [Nat.add_comm]

theorem ToBinarySlice_lt (n length : Nat) : ∀ x ∈ ToBinarySlice n length, x < 256 := by
  induction n using Nat.strong_induction_on generalizing length with
  | _ n ih =>
    rcases Nat.eq_zero_or_pos n with h0 | hpos
    · subst h0
      rw [ToBinarySlice_zero]
      simp
    · rw [ToBinarySlice_pos hpos]
      intro x hx
      rcases List.mem_append.mp hx with h | h
      · exact ih (n / 256) (Nat.div_lt_self hpos (by decide)) 0 x h
      · have : x = n % 256 := by simpa using h
        omega

theorem ToBinarySlice_head (n length : Nat) (hn : 0 < n) :
    ∃ x rest, ToBinarySlice n length = x :: rest ∧ x ≠ 0 := by
  induction n using Nat.strong_induction_on generalizing length with
  | _ n ih =>
    rw [ToBinarySlice_pos hn]
    rcases Nat.eq_zero_or_pos (n / 256) with h0 | hpos
    · rw [h0, ToBinarySlice_zero]
      refine ⟨n % 256, [], rfl, ?_⟩
      omega
    · obtain ⟨x, rest, hx, hne⟩ := ih (n / 256) (Nat.div_lt_self hn (by decide)) 0 hpos
      exact ⟨x, rest ++ [n % 256], by rw [hx]; rfl, hne⟩

theorem lt_pow_BinaryLength (n : Nat) : n < 256 ^ BinaryLength n := by
  induction n using Nat.strong_induction_on with
  | _ n ih =>
    rcases Nat.eq_zero_or_pos n with h0 | hpos
    · subst h0
      simp
    · rw [BinaryLength_pos hpos, Nat.add_comm, Nat.pow_succ]
      have := ih (n / 256) (Nat.div_lt_self hpos (by decide))
      omega

theorem BinaryLength_le_of_lt_pow (n k : Nat) (h : n < 256 ^ k) : BinaryLength n ≤ k := by
  induction n using Nat.strong_induction_on generalizing k with
  | _ n ih =>
    rcases Nat.eq_zero_or_pos n with h0 | hpos
    · subst h0
      simp [BinaryLength_zero]
    · rw [BinaryLength_pos hpos]
      cases k with
      | zero => simp at h; omega
      | succ k =>
        rw [Nat.pow_succ] at h
        have hd : n / 256 < 256 ^ k := by
          rw [Nat.div_lt_iff_lt_mul (by decide)]
          exact h
        have := ih (n / 256) (Nat.div_lt_self hpos (by decide)) k hd
        omega

theorem BinaryLength_le_eight {n : Nat} (h : n < 2 ^ 64) : BinaryLength n ≤ 8 :=
  BinaryLength_le_of_lt_pow n 8 (by norm_num at h ⊢; exact h)

theorem BinaryLength_ne_zero {n : Nat} (h : 0 < n) : 1 ≤ BinaryLength n := by
  rw [BinaryLength_pos h]
  omega

theorem ToBin_length (n length : Nat) : (ToBin n length).length = BinaryLength n := by
  simp [ToBin, ToBinarySlice_length]

theorem ToBin_zero (length : Nat) : ToBin 0 length = [] := by
  simp [ToBin, ToBinarySlice_zero]

theorem ToBin_pos {n : Nat} (h : 0 < n) (length : Nat) :
    ToBin n length = ToBin (n / 256) 0 ++ [toByte (n % 256)] := by
  simp [ToBin, ToBinarySlice_pos h]

theorem FromBin_ToBin (n length : Nat) (h : n < 2 ^ 64) : FromBin (ToBin n length) = n := by
  induction n using Nat.strong_induction_on generalizing length with
  | _ n ih =>
    rcases Nat.eq_zero_or_pos n with h0 | hpos
    · subst h0
      rw [ToBin_zero]
      rfl
    · rw [ToBin_pos hpos, FromBin_snoc,
        ih (n / 256) (Nat.div_lt_self hpos (by decide)) 0 (by omega),
        toByte_val_of_lt (Nat.mod_lt n (by decide))]
      have : n / 256 * 256 + n % 256 = n := by omega
      rw [this, u64_of_lt h]

/-! ## `FromBin` against the big-endian sum -/

theorem bigEndianSum_nil : bigEndianSum [] = 0 := rfl

theorem bigEndianSum_snoc (d : List Byte) (x : Byte) :
    bigEndianSum (d ++ [x]) = bigEndianSum d * 256 + x.val := by
  unfold bigEndianSum
  have hlen : (d ++ [x]).length = d.length + 1 := by simp
  rw [hlen, List.range_succ, List.map_append, List.sum_append]
  have hlast : ((d ++ [x]).getD d.length 0).val * 256 ^ (d.length + 1 - 1 - d.length) = x.val := by
    simp [List.getD_eq_getElem?_getD]
  have hinit : (List.range d.length).map
        (fun i => ((d ++ [x]).getD i 0).val * 256 ^ (d.length + 1 - 1 - i))
      = (List.range d.length).map
        (fun i => ((d.getD i 0).val * 256 ^ (d.length - 1 - i)) * 256) := by
    apply List.map_congr_left
    intro i hi
    have hi2 : i < d.length := List.mem_range.mp hi
    have h1 : (d ++ [x]).getD i 0 = d.getD i 0 := by
      simp [List.getD_eq_getElem?_getD, List.getElem?_append_left hi2]
    have h2 : d.length + 1 - 1 - i = (d.length - 1 - i) + 1 := by omega
    rw [h1, h2, Nat.pow_succ, Nat.mul_assoc]
  rw [hinit, List.sum_map_mul_right]
  simp only [List.map_cons, List.map_nil, List.sum_cons, List.sum_nil, Nat.add_zero]
  rw [hlast]

theorem bigEndianSum_lt (d : List Byte) : bigEndianSum d < 256 ^ d.length := by
  induction d using List.reverseRecOn with
  | nil => simp [bigEndianSum_nil]
  | append_singleton d x ih =>
    rw [bigEndianSum_snoc, List.length_append, List.length_singleton, Nat.pow_succ]
    have := x.isLt
    omega

theorem FromBin_eq_sum_mod (d : List Byte) : FromBin d = bigEndianSum d % 2 ^ 64 := by
  induction d using List.reverseRecOn with
  | nil => rfl
  | append_singleton d x ih =>
    rw [FromBin_snoc, bigEndianSum_snoc, ih]
    unfold u64
    omega

theorem FromBin_eq_sum_of_le (d : List Byte) (h : d.length ≤ 8) : FromBin d = bigEndianSum d := by
  rw [FromBin_eq_sum_mod]
  apply Nat.mod_eq_of_lt
  calc bigEndianSum d < 256 ^ d.length := bigEndianSum_lt d
    _ ≤ 256 ^ 8 := Nat.pow_le_pow_right (by decide) h
    _ = 2 ^ 64 := by norm_num

/-! ## Encoding rules -/

theorem runeString_of_lt {x : Nat} (h : x < 128) : runeString x = [toByte x] := by
  unfold runeString
  rw [if_pos h]

theorem encodeUint_small (pow256 : Nat) {n : Nat} (h : n < 24) :
    encodeUint pow256 n = [toByte n] := by
  unfold encodeUint
  rw [if_pos h, runeString_of_lt (by omega)]

theorem encodeUint_short (pow256 : Nat) {n : Nat} (h : 24 ≤ n) (hp : n ≤ pow256)
    (h64 : n < 2 ^ 64) :
    encodeUint pow256 n = toByte (BinaryLength n + 23) :: ToBin n 0 := by
  unfold encodeUint
  have h8 := BinaryLength_le_eight h64
  rw [if_neg (by omega), if_pos hp]
  simp only [ToBin_length]
  rw [runeString_of_lt (by omega)]
  rfl

theorem encodeUint_long (pow256 : Nat) {n : Nat} (h : 24 ≤ n) (hp : pow256 < n)
    (h64 : n < 2 ^ 64) :
    encodeUint pow256 n = toByte 56 :: toByte (BinaryLength n) :: ToBin n 0 := by
  unfold encodeUint
  have h8 := BinaryLength_le_eight h64
  have h1 := BinaryLength_ne_zero (show 0 < n by omega)
  rw [if_neg (by omega), if_neg (by omega)]
  simp only [ToBin_length]
  have hu : u64 (BinaryLength n) = BinaryLength n := u64_of_lt (by omega)
  have hb : ToBin (BinaryLength n) 0 = [toByte (BinaryLength n)] := by
    rw [ToBin_pos (by omega)]
    have h0 : BinaryLength n / 256 = 0 := by omega
    rw [h0, ToBin_zero, Nat.mod_eq_of_lt (by omega)]
    rfl
  have hl : BinaryLength (BinaryLength n) = 1 := by
    rw [← ToBin_length (BinaryLength n) 0, hb]
    rfl
  rw [hu, hl, hb, runeString_of_lt (by omega)]
  rfl

theorem encodeString_short {t : List Byte} (h : t.length < 56) :
    encodeString t = toByte (t.length + 64) :: t := by
  unfold encodeString
  rw [if_pos h, runeString_of_lt (by omega)]
  rfl

theorem encodeString_long {t : List Byte} (h : 56 ≤ t.length) (h64 : t.length < 2 ^ 64) :
    encodeString t = toByte (BinaryLength t.length + 119) :: (ToBin t.length 0 ++ t) := by
  unfold encodeString
  have h8 := BinaryLength_le_eight h64
  rw [if_neg (by omega)]
  simp only [ToBin_length, u64_of_lt h64]
  rw [runeString_of_lt (by omega)]
  rfl

theorem WriteSliceHeader_short {k : Nat} (h : k < 56) :
    WriteSliceHeader k = [toByte (k + 128)] := by
  unfold WriteSliceHeader
  rw [if_pos h]

theorem WriteSliceHeader_long {k : Nat} (h : 56 ≤ k) (h64 : k < 2 ^ 64) :
    WriteSliceHeader k = toByte (BinaryLength k + 183) :: ToBin k 0 := by
  unfold WriteSliceHeader
  rw [if_neg (by omega)]
  simp only [ToBin_length, u64_of_lt h64]

theorem EncodeAll_eq_flatten (pow256 : Nat) (xs : List Obj) :
    EncodeAll pow256 xs = (xs.map (Encode pow256)).flatten := by
  induction xs with
  | nil => rfl
  | cons x xs ih => simp [EncodeAll, ih]

theorem Encode_slice (pow256 : Nat) (xs : List Obj) :
    Encode pow256 (.slice xs) = WriteSliceHeader xs.length ++ EncodeAll pow256 xs := by
  simp [Encode]

/-! ## Decoder: reading a slice through its backing array -/

theorem ByteSlice.index_of_arr (data : ByteSlice) (p r : List Byte) (c : Byte)
    (harr : data.arr = p ++ c :: r) (hp : p.length < data.len) :
    data.index p.length = some c := by
  unfold ByteSlice.index
  unfold ByteSlice.len at hp
  have h1 : data.content[p.length]? = (data.content ++ data.spare)[p.length]? :=
    (List.getElem?_append_left hp).symm
  have h2 : data.content ++ data.spare = p ++ c :: r := harr
  rw [h1, h2, List.getElem?_append_right (Nat.le_refl _)]
  simp

theorem ByteSlice.slice_of_arr (data : ByteSlice) (a b c : List Byte) (lo hi : Nat)
    (harr : data.arr = a ++ b ++ c) (hlo : lo = a.length) (hhi : hi = a.length + b.length) :
    data.slice lo hi = some b := by
  unfold ByteSlice.slice
  have hcap : data.cap = a.length + b.length + c.length := by
    have : data.cap = data.arr.length := by simp [ByteSlice.cap, ByteSlice.arr]
    rw [this, harr]
    simp only [List.length_append]
  subst hlo hhi
  rw [if_pos ⟨by omega, by omega⟩, harr]
  simp

theorem lenCheck (data : ByteSlice) (pos : Nat) (hpos : pos < data.len)
    (hlen : data.len < 2 ^ 64) : ¬ pos > u64 (data.len + 2 ^ 64 - 1) := by
  unfold u64
  omega

/-! ## Decoder: one lemma per tag range -/

set_option maxRecDepth 10000

theorem DecodeAux_small (fuel : Nat) (data : ByteSlice) (p r : List Byte) (c : Byte)
    (harr : data.arr = p ++ c :: r) (hp : p.length < data.len) (hlen : data.len < 2 ^ 64)
    (hc : c.val < 24) :
    DecodeAux (fuel + 1) data p.length = .ok (.uint8 c, p.length + 1) := by
  have hu : u64 (p.length + 1) = p.length + 1 := u64_of_lt (by omega)
  simp only [DecodeAux, if_neg (lenCheck data _ hp hlen),
    ByteSlice.index_of_arr data p r c harr hp, if_pos hc, hu]

theorem DecodeAux_shortInt (fuel : Nat) (data : ByteSlice) (p s r : List Byte) (c : Byte)
    (harr : data.arr = p ++ c :: s ++ r) (hp : p.length + 1 + s.length ≤ data.len)
    (hlen : data.len < 2 ^ 64) (hc1 : 24 ≤ c.val) (hc2 : c.val < 56)
    (hs : s.length = c.val - 23) :
    DecodeAux (fuel + 1) data p.length
      = .ok (.uint64 (FromBin s), p.length + 1 + s.length) := by
  have hu1 : u64 (p.length + 1) = p.length + 1 := u64_of_lt (by omega)
  have hu2 : u64 (p.length + 1 + (c.val - 23)) = p.length + 1 + s.length := by
    rw [← hs]
    exact u64_of_lt (by omega)
  have hidx := ByteSlice.index_of_arr data p (s ++ r) c (by simpa using harr) (by omega)
  have hsl := ByteSlice.slice_of_arr data (p ++ [c]) s r (p.length + 1)
    (p.length + 1 + s.length) (by simpa using harr) (by simp) (by simp)
  simp only [DecodeAux, if_neg (lenCheck data _ (show p.length < data.len by omega) hlen),
    hidx, if_neg (show ¬ c.val < 24 by omega), if_pos hc2, hu1, hu2, hsl]

theorem DecodeAux_longInt (fuel : Nat) (data : ByteSlice) (p s1 s2 r : List Byte) (c : Byte)
    (harr : data.arr = p ++ c :: (s1 ++ s2) ++ r)
    (hp : p.length + 1 + s1.length + s2.length ≤ data.len)
    (hlen : data.len < 2 ^ 64) (hc1 : 56 ≤ c.val) (hc2 : c.val < 64)
    (hs1 : s1.length = c.val - 55) (hs2 : FromBin s1 = s2.length) :
    DecodeAux (fuel + 1) data p.length
      = .ok (.uint64 (FromBin s2), p.length + 1 + s1.length + s2.length) := by
  have hu1 : u64 (p.length + 1) = p.length + 1 := u64_of_lt (by omega)
  have hu2 : u64 (p.length + 1 + (c.val - 55)) = p.length + 1 + s1.length := by
    rw [← hs1]
    exact u64_of_lt (by omega)
  have hu3 : u64 (p.length + 1 + (c.val - 55) + s2.length)
      = p.length + 1 + s1.length + s2.length := by
    rw [← hs1]
    exact u64_of_lt (by omega)
  have hidx := ByteSlice.index_of_arr data p (s1 ++ s2 ++ r) c (by simpa using harr) (by omega)
  have hsl1 := ByteSlice.slice_of_arr data (p ++ [c]) s1 (s2 ++ r) (p.length + 1)
    (p.length + 1 + s1.length) (by simpa using harr) (by simp) (by simp)
  have hsl2 := ByteSlice.slice_of_arr data (p ++ [c] ++ s1) s2 r (p.length + 1 + s1.length)
    (p.length + 1 + s1.length + s2.length) (by simpa using harr)
    (by simp only [List.length_append, List.length_singleton])
    (by simp only [List.length_append, List.length_singleton])
  simp only [DecodeAux, if_neg (lenCheck data _ (show p.length < data.len by omega) hlen),
    hidx, if_neg (show ¬ c.val < 24 by omega), if_neg (show ¬ c.val < 56 by omega),
    if_pos hc2, hu1, hu2, hsl1, hs2, hu3, hsl2]

theorem DecodeAux_shortString (fuel : Nat) (data : ByteSlice) (p s r : List Byte) (c : Byte)
    (harr : data.arr = p ++ c :: s ++ r) (hp : p.length + 1 + s.length ≤ data.len)
    (hlen : data.len < 2 ^ 64) (hc1 : 64 ≤ c.val) (hc2 : c.val < 120)
    (hs : s.length = c.val - 64) :
    DecodeAux (fuel + 1) data p.length = .ok (.bytes s, p.length + 1 + s.length) := by
  have hu1 : u64 (p.length + 1) = p.length + 1 := u64_of_lt (by omega)
  have hu2 : u64 (p.length + 1 + (c.val - 64)) = p.length + 1 + s.length := by
    rw [← hs]
    exact u64_of_lt (by omega)
  have hidx := ByteSlice.index_of_arr data p (s ++ r) c (by simpa using harr) (by omega)
  have hsl := ByteSlice.slice_of_arr data (p ++ [c]) s r (p.length + 1)
    (p.length + 1 + s.length) (by simpa using harr) (by simp) (by simp)
  simp only [DecodeAux, if_neg (lenCheck data _ (show p.length < data.len by omega) hlen),
    hidx, if_neg (show ¬ c.val < 24 by omega), if_neg (show ¬ c.val < 56 by omega),
    if_neg (show ¬ c.val < 64 by omega), if_pos hc2, hu1, hu2, hsl]

theorem DecodeAux_longString (fuel : Nat) (data : ByteSlice) (p s1 s2 r : List Byte) (c : Byte)
    (harr : data.arr = p ++ c :: (s1 ++ s2) ++ r)
    (hp : p.length + 1 + s1.length + s2.length ≤ data.len)
    (hlen : data.len < 2 ^ 64) (hc1 : 120 ≤ c.val) (hc2 : c.val < 128)
    (hs1 : s1.length = c.val - 119) (hs2 : FromBin s1 = s2.length) :
    DecodeAux (fuel + 1) data p.length
      = .ok (.bytes s2, p.length + 1 + s1.length + s2.length) := by
  have hu1 : u64 (p.length + 1) = p.length + 1 := u64_of_lt (by omega)
  have hu2 : u64 (p.length + 1 + (c.val - 119)) = p.length + 1 + s1.length := by
    rw [← hs1]
    exact u64_of_lt (by omega)
  have hu3 : u64 (p.length + 1 + (c.val - 119) + s2.length)
      = p.length + 1 + s1.length + s2.length := by
    rw [← hs1]
    exact u64_of_lt (by omega)
  have hidx := ByteSlice.index_of_arr data p (s1 ++ s2 ++ r) c (by simpa using harr) (by omega)
  have hsl1 := ByteSlice.slice_of_arr data (p ++ [c]) s1 (s2 ++ r) (p.length + 1)
    (p.length + 1 + s1.length) (by simpa using harr) (by simp) (by simp)
  have hsl2 := ByteSlice.slice_of_arr data (p ++ [c] ++ s1) s2 r (p.length + 1 + s1.length)
    (p.length + 1 + s1.length + s2.length) (by simpa using harr)
    (by simp only [List.length_append, List.length_singleton])
    (by simp only [List.length_append, List.length_singleton])
  simp only [DecodeAux, if_neg (lenCheck data _ (show p.length < data.len by omega) hlen),
    hidx, if_neg (show ¬ c.val < 24 by omega), if_neg (show ¬ c.val < 56 by omega),
    if_neg (show ¬ c.val < 64 by omega), if_neg (show ¬ c.val < 120 by omega),
    if_pos hc2, hu1, hu2, hsl1, hs2, hu3, hsl2]

theorem DecodeAux_shortList (fuel : Nat) (data : ByteSlice) (p r : List Byte) (c : Byte)
    (harr : data.arr = p ++ c :: r) (hp : p.length < data.len) (hlen : data.len < 2 ^ 64)
    (hc1 : 128 ≤ c.val) (hc2 : c.val < 184) :
    DecodeAux (fuel + 1) data p.length
      = decodeLoop (DecodeAux fuel data) (c.val - 128) (p.length + 1) [] := by
  have hu : u64 (p.length + 1) = p.length + 1 := u64_of_lt (by omega)
  simp only [DecodeAux, if_neg (lenCheck data _ hp hlen),
    ByteSlice.index_of_arr data p r c harr hp,
    if_neg (show ¬ c.val < 24 by omega), if_neg (show ¬ c.val < 56 by omega),
    if_neg (show ¬ c.val < 64 by omega), if_neg (show ¬ c.val < 120 by omega),
    if_neg (show ¬ c.val < 128 by omega), if_pos hc2, hu]

theorem DecodeAux_longList (fuel : Nat) (data : ByteSlice) (p r : List Byte) (c : Byte)
    (harr : data.arr = p ++ c :: r) (hp : p.length < data.len) (hlen : data.len < 2 ^ 64)
    (hc1 : 184 ≤ c.val) (hc2 : c.val < 192) (hpos : p.length + 1 + (c.val - 183) < 2 ^ 64) :
    DecodeAux (fuel + 1) data p.length
      = decodeLoop (DecodeAux fuel data) (c.val - 183) (p.length + 1 + (c.val - 183)) [] := by
  have hu : u64 (p.length + 1 + (c.val - 183)) = p.length + 1 + (c.val - 183) :=
    u64_of_lt (by omega)
  simp only [DecodeAux, if_neg (lenCheck data _ hp hlen),
    ByteSlice.index_of_arr data p r c harr hp,
    if_neg (show ¬ c.val < 24 by omega), if_neg (show ¬ c.val < 56 by omega),
    if_neg (show ¬ c.val < 64 by omega), if_neg (show ¬ c.val < 120 by omega),
    if_neg (show ¬ c.val < 128 by omega), if_neg (show ¬ c.val < 184 by omega),
    if_pos hc2, hu]

/-! ## Round trip of the leaves -/

theorem FromBin_singleton (x : Byte) : FromBin [x] = x.val := by
  have h := FromBin_snoc [] x
  rw [List.nil_append, FromBin_nil] at h
  rw [h]
  have := x.isLt
  unfold u64
  omega

theorem Decode_encodeUint (pow256 fuel n : Nat) (data : ByteSlice) (p r : List Byte)
    (hn : n < 2 ^ 64) (harr : data.arr = p ++ encodeUint pow256 n ++ r)
    (hp : p.length + (encodeUint pow256 n).length ≤ data.len) (hlen : data.len < 2 ^ 64) :
    DecodeAux (fuel + 1) data p.length
      = .ok (if n < 24 then Obj.uint8 (toByte n) else Obj.uint64 n,
          p.length + (encodeUint pow256 n).length) := by
  have h8 := BinaryLength_le_eight hn
  rcases Nat.lt_or_ge n 24 with h24 | h24
  · rw [encodeUint_small pow256 h24] at harr hp ⊢
    rw [if_pos h24]
    have hv : (toByte n).val < 24 := by rw [toByte_val_of_lt (by omega)]; exact h24
    exact DecodeAux_small fuel data p r (toByte n) (by simpa using harr)
      (by simpa using hp) hlen hv
  · rw [if_neg (by omega)]
    rcases Nat.lt_or_ge pow256 n with hM | hM
    · rw [encodeUint_long pow256 h24 hM hn] at harr hp ⊢
      have h1 := BinaryLength_ne_zero (show 0 < n by omega)
      have hb : (toByte (BinaryLength n)).val = BinaryLength n := toByte_val_of_lt (by omega)
      have hr := DecodeAux_longInt fuel data p [toByte (BinaryLength n)] (ToBin n 0) r
        (toByte 56) (by simpa using harr)
        (by simp only [List.length_cons, List.length_nil, ToBin_length] at hp ⊢; omega) hlen
        (by decide) (by decide) (by rfl)
        (by rw [FromBin_singleton, hb, ToBin_length])
      rw [hr, FromBin_ToBin n 0 hn]
      simp only [List.length_cons, List.length_nil, ToBin_length]
      congr 2
      omega
    · rw [encodeUint_short pow256 h24 hM hn] at harr hp ⊢
      have h1 := BinaryLength_ne_zero (show 0 < n by omega)
      have hb : (toByte (BinaryLength n + 23)).val = BinaryLength n + 23 :=
        toByte_val_of_lt (by omega)
      have hr := DecodeAux_shortInt fuel data p (ToBin n 0) r (toByte (BinaryLength n + 23))
        (by simpa using harr)
        (by simp only [List.length_cons, ToBin_length] at hp ⊢; omega) hlen
        (by rw [hb]; omega) (by rw [hb]; omega) (by rw [ToBin_length, hb]; omega)
      rw [hr, FromBin_ToBin n 0 hn]
      simp only [List.length_cons, ToBin_length]
      congr 2
      omega

theorem Decode_encodeString (fuel : Nat) (t : List Byte) (data : ByteSlice) (p r : List Byte)
    (harr : data.arr = p ++ encodeString t ++ r)
    (hp : p.length + (encodeString t).length ≤ data.len) (hlen : data.len < 2 ^ 64) :
    DecodeAux (fuel + 1) data p.length
      = .ok (Obj.bytes t, p.length + (encodeString t).length) := by
  rcases Nat.lt_or_ge t.length 56 with h56 | h56
  · rw [encodeString_short h56] at harr hp ⊢
    have hb : (toByte (t.length + 64)).val = t.length + 64 := toByte_val_of_lt (by omega)
    have hr := DecodeAux_shortString fuel data p t r (toByte (t.length + 64))
      (by simpa using harr) (by simp only [List.length_cons] at hp; omega) hlen
      (by rw [hb]; omega) (by rw [hb]; omega) (by rw [hb]; omega)
    rw [hr]
    simp only [List.length_cons]
    congr 2
    omega
  · have ht : t.length < 2 ^ 64 := by
      have : t.length ≤ (encodeString t).length := by
        unfold encodeString
        rw [if_neg (by omega)]
        simp only [List.length_append]
        omega
      omega
    have h8 := BinaryLength_le_eight ht
    have h1 := BinaryLength_ne_zero (show 0 < t.length by omega)
    rw [encodeString_long h56 ht] at harr hp ⊢
    have hb : (toByte (BinaryLength t.length + 119)).val = BinaryLength t.length + 119 :=
      toByte_val_of_lt (by omega)
    have hr := DecodeAux_longString fuel data p (ToBin t.length 0) t r
      (toByte (BinaryLength t.length + 119)) (by simpa using harr)
      (by simp only [List.length_cons, List.length_append, ToBin_length] at hp ⊢; omega) hlen
      (by rw [hb]; omega) (by rw [hb]; omega) (by rw [ToBin_length, hb]; omega)
      (FromBin_ToBin _ 0 ht)
    rw [hr]
    simp only [List.length_cons, List.length_append, ToBin_length]
    congr 2
    omega

/-! ## Round trip of values without long lists -/

theorem Encode_uint8 (pow256 : Nat) (b : Byte) :
    Encode pow256 (.uint8 b) = encodeUint pow256 b.val := by
  simp [Encode]

theorem Encode_uint64 (pow256 n : Nat) : Encode pow256 (.uint64 n) = encodeUint pow256 n := by
  simp [Encode]

theorem Encode_bytes (pow256 : Nat) (t : List Byte) :
    Encode pow256 (.bytes t) = encodeString t := by
  simp [Encode]

mutual
theorem DecodeAux_Encode (pow256 : Nat) : ∀ (v : Obj), v.isValue = true → v.shortLists = true →
    ∀ (fuel : Nat) (data : ByteSlice) (p r : List Byte),
      data.arr = p ++ Encode pow256 v ++ r →
      p.length + (Encode pow256 v).length ≤ data.len → data.len < 2 ^ 64 → v.depth < fuel →
      DecodeAux fuel data p.length = .ok (v.decoded, p.length + (Encode pow256 v).length)
  | .uint8 b, _, _, fuel, data, p, r, harr, hp, hlen, hfuel => by
    obtain ⟨f, rfl⟩ : ∃ f, fuel = f + 1 := ⟨fuel - 1, by omega⟩
    rw [Encode_uint8] at harr hp ⊢
    have hb := b.isLt
    rw [Decode_encodeUint pow256 f b.val data p r (by omega) harr hp hlen]
    simp only [Obj.decoded]
    by_cases h : b.val < 24
    · rw [if_pos h, if_pos h, toByte_self]
    · rw [if_neg h, if_neg h]
  | .uint64 n, hv, _, fuel, data, p, r, harr, hp, hlen, hfuel => by
    obtain ⟨f, rfl⟩ : ∃ f, fuel = f + 1 := ⟨fuel - 1, by omega⟩
    rw [Encode_uint64] at harr hp ⊢
    have hn : n < 2 ^ 64 := by simpa [Obj.isValue] using hv
    rw [Decode_encodeUint pow256 f n data p r hn harr hp hlen]
    simp only [Obj.decoded]
  | .bytes t, _, _, fuel, data, p, r, harr, hp, hlen, hfuel => by
    obtain ⟨f, rfl⟩ : ∃ f, fuel = f + 1 := ⟨fuel - 1, by omega⟩
    rw [Encode_bytes] at harr hp ⊢
    rw [Decode_encodeString f t data p r harr hp hlen]
    simp only [Obj.decoded]
  | .slice xs, hv, hs, fuel, data, p, r, harr, hp, hlen, hfuel => by
    have hfuel2 : 1 + Obj.depthAll xs < fuel := by simpa [Obj.depth] using hfuel
    obtain ⟨f, rfl⟩ : ∃ f, fuel = f + 1 := ⟨fuel - 1, by omega⟩
    have hv2 : Obj.allValues xs = true := by simpa [Obj.isValue] using hv
    have hs2 : xs.length < 56 ∧ Obj.allShortLists xs = true := by
      simpa [Obj.shortLists] using hs
    rw [Encode_slice, WriteSliceHeader_short hs2.1] at harr hp ⊢
    have hb : (toByte (xs.length + 128)).val = xs.length + 128 := toByte_val_of_lt (by omega)
    have hstep := DecodeAux_shortList f data p (EncodeAll pow256 xs ++ r)
      (toByte (xs.length + 128)) (by simpa using harr)
      (by simp only [List.length_append, List.length_singleton] at hp; omega) hlen
      (by rw [hb]; omega) (by rw [hb]; omega)
    have hk : (toByte (xs.length + 128)).val - 128 = xs.length := by rw [hb]; omega
    rw [hstep, hk]
    have hloop := decodeLoop_EncodeAll pow256 xs hv2 hs2.2 f data
      (p ++ [toByte (xs.length + 128)]) r [] (by simpa using harr)
      (by simp only [List.length_append, List.length_singleton] at hp ⊢; omega) hlen (by omega)
    simp only [List.length_append, List.length_singleton] at hloop
    rw [hloop]
    simp only [Obj.decoded, List.nil_append, List.length_append, List.length_singleton]
    congr 2
    omega
  | .nil, hv, _, _, _, _, _, _, _, _, _ => by simp [Obj.isValue] at hv
  | .int _, hv, _, _, _, _, _, _, _, _, _ => by simp [Obj.isValue] at hv
  | .uint16 _, hv, _, _, _, _, _, _, _, _, _ => by simp [Obj.isValue] at hv
  | .uint32 _, hv, _, _, _, _, _, _, _, _, _ => by simp [Obj.isValue] at hv
  | .bigInt _, hv, _, _, _, _, _, _, _, _, _ => by simp [Obj.isValue] at hv
  | .string _, hv, _, _, _, _, _, _, _, _, _ => by simp [Obj.isValue] at hv
  | .strings _, hv, _, _, _, _, _, _, _, _, _ => by simp [Obj.isValue] at hv
  | .other, hv, _, _, _, _, _, _, _, _, _ => by simp [Obj.isValue] at hv
theorem decodeLoop_EncodeAll (pow256 : Nat) : ∀ (xs : List Obj), Obj.allValues xs = true →
    Obj.allShortLists xs = true →
    ∀ (fuel : Nat) (data : ByteSlice) (p r : List Byte) (acc : List Obj),
      data.arr = p ++ EncodeAll pow256 xs ++ r →
      p.length + (EncodeAll pow256 xs).length ≤ data.len → data.len < 2 ^ 64 →
      Obj.depthAll xs < fuel →
      decodeLoop (DecodeAux fuel data) xs.length p.length acc
        = .ok (.slice (acc ++ Obj.decodedAll xs), p.length + (EncodeAll pow256 xs).length)
  | [], _, _, fuel, data, p, r, acc, harr, hp, hlen, hfuel => by
    simp [decodeLoop, Obj.decodedAll, EncodeAll]
  | x :: xs, hv, hs, fuel, data, p, r, acc, harr, hp, hlen, hfuel => by
    have hv2 : Obj.isValue x = true ∧ Obj.allValues xs = true := by
      simpa [Obj.allValues] using hv
    have hs2 : Obj.shortLists x = true ∧ Obj.allShortLists xs = true := by
      simpa [Obj.allShortLists] using hs
    have hd : Obj.depth x < fuel ∧ Obj.depthAll xs < fuel := by
      simp only [Obj.depthAll] at hfuel
      omega
    simp only [EncodeAll, List.length_append] at harr hp ⊢
    have hx := DecodeAux_Encode pow256 x hv2.1 hs2.1 fuel data p
      (EncodeAll pow256 xs ++ r) (by simpa using harr) (by omega) hlen hd.1
    have hrest := decodeLoop_EncodeAll pow256 xs hv2.2 hs2.2 fuel data
      (p ++ Encode pow256 x) r (acc ++ [Obj.decoded x]) (by simpa using harr)
      (by simp only [List.length_append]; omega) hlen hd.2
    simp only [List.length_cons, decodeLoop, hx]
    simp only [List.length_append] at hrest
    rw [hrest]
    simp only [Obj.decodedAll, List.append_assoc, List.singleton_append]
    congr 2
    omega
end

/-! ## Decoding a stream of encoded values, long lists included -/

theorem EncodeAll_append (pow256 : Nat) (xs ys : List Obj) :
    EncodeAll pow256 (xs ++ ys) = EncodeAll pow256 xs ++ EncodeAll pow256 ys := by
  simp [EncodeAll_eq_flatten]

theorem allValues_append (xs ys : List Obj) :
    Obj.allValues (xs ++ ys) = (Obj.allValues xs && Obj.allValues ys) := by
  induction xs with
  | nil => simp [Obj.allValues]
  | cons x xs ih => simp [Obj.allValues, ih, Bool.and_assoc]

theorem depthAll_append (xs ys : List Obj) :
    Obj.depthAll (xs ++ ys) = max (Obj.depthAll xs) (Obj.depthAll ys) := by
  induction xs with
  | nil => simp [Obj.depthAll]
  | cons x xs ih => simp [Obj.depthAll, ih, Nat.max_assoc]

theorem WriteSliceHeader_length_pos (k : Nat) : 1 ≤ (WriteSliceHeader k).length := by
  unfold WriteSliceHeader
  split <;> simp

mutual
theorem depth_le_length (pow256 : Nat) : ∀ (v : Obj), v.depth ≤ (Encode pow256 v).length
  | .slice xs => by
    have h1 := depthAll_le_length pow256 xs
    have h2 := WriteSliceHeader_length_pos xs.length
    simp only [Obj.depth, Encode_slice, List.length_append]
    omega
  | .nil => by simp [Obj.depth]
  | .int _ => by simp [Obj.depth]
  | .uint8 _ => by simp [Obj.depth]
  | .uint16 _ => by simp [Obj.depth]
  | .uint32 _ => by simp [Obj.depth]
  | .uint64 _ => by simp [Obj.depth]
  | .bigInt _ => by simp [Obj.depth]
  | .string _ => by simp [Obj.depth]
  | .bytes _ => by simp [Obj.depth]
  | .strings _ => by simp [Obj.depth]
  | .other => by simp [Obj.depth]
theorem depthAll_le_length (pow256 : Nat) :
    ∀ (xs : List Obj), Obj.depthAll xs ≤ (EncodeAll pow256 xs).length
  | [] => by simp [Obj.depthAll]
  | x :: xs => by
    have h1 := depth_le_length pow256 x
    have h2 := depthAll_le_length pow256 xs
    simp only [Obj.depthAll, EncodeAll, List.length_append]
    omega
end

theorem runeString_length_pos (x : Nat) : 1 ≤ (runeString x).length := by
  unfold runeString
  repeat' split
  all_goals simp

theorem encodeUint_length_pos (pow256 n : Nat) : 1 ≤ (encodeUint pow256 n).length := by
  unfold encodeUint
  split
  · exact runeString_length_pos n
  · split
    · simp only [List.length_append]
      exact Nat.le_trans (runeString_length_pos _) (Nat.le_add_right _ _)
    · simp only [List.length_append]
      exact Nat.le_trans (runeString_length_pos _)
        (Nat.le_trans (Nat.le_add_right _ _) (Nat.le_add_right _ _))

theorem encodeString_length_pos (t : List Byte) : 1 ≤ (encodeString t).length := by
  unfold encodeString
  split
  · simp only [List.length_append]
    exact Nat.le_trans (runeString_length_pos _) (Nat.le_add_right _ _)
  · simp only [List.length_append]
    exact Nat.le_trans (runeString_length_pos _)
      (Nat.le_trans (Nat.le_add_right _ _) (Nat.le_add_right _ _))

theorem Encode_value_length_pos (pow256 : Nat) (v : Obj) (hv : v.isValue = true) :
    1 ≤ (Encode pow256 v).length := by
  cases v with
  | uint8 b => rw [Encode_uint8]; exact encodeUint_length_pos _ _
  | uint64 n => rw [Encode_uint64]; exact encodeUint_length_pos _ _
  | bytes t => rw [Encode_bytes]; exact encodeString_length_pos _
  | slice xs =>
    have := WriteSliceHeader_length_pos xs.length
    rw [Encode_slice, List.length_append]
    omega
  | _ => simp [Obj.isValue] at hv

theorem length_le_EncodeAll (pow256 : Nat) (xs : List Obj) (hv : Obj.allValues xs = true) :
    xs.length ≤ (EncodeAll pow256 xs).length := by
  induction xs with
  | nil => simp
  | cons x xs ih =>
    have hv2 : Obj.isValue x = true ∧ Obj.allValues xs = true := by
      simpa [Obj.allValues] using hv
    have h1 := Encode_value_length_pos pow256 x hv2.1
    have h2 := ih hv2.2
    simp only [EncodeAll, List.length_append, List.length_cons]
    omega

theorem stream_loop (pow256 fuel : Nat) (data : ByteSlice)
    (hstep : ∀ v : Obj, v.isValue = true → v.depth < fuel → ∀ p r : List Byte,
      data.arr = p ++ Encode pow256 v ++ r → p.length + (Encode pow256 v).length ≤ data.len →
      ∃ (o : Obj) (q : List Byte) (E : List Obj),
        DecodeAux fuel data p.length = .ok (o, q.length) ∧
        data.arr = q ++ EncodeAll pow256 E ++ r ∧ Obj.allValues E = true ∧
        Obj.depthAll E ≤ v.depth) :
    ∀ (k : Nat) (F : List Obj), k ≤ F.length → Obj.allValues F = true →
      Obj.depthAll F < fuel → ∀ (p r : List Byte) (acc : List Obj),
      data.arr = p ++ EncodeAll pow256 F ++ r →
      p.length + (EncodeAll pow256 F).length ≤ data.len →
      ∃ (os : List Obj) (q : List Byte) (E : List Obj),
        decodeLoop (DecodeAux fuel data) k p.length acc = .ok (.slice (acc ++ os), q.length) ∧
        os.length = k ∧ data.arr = q ++ EncodeAll pow256 E ++ r ∧ Obj.allValues E = true ∧
        Obj.depthAll E ≤ Obj.depthAll F ∧ F.length ≤ E.length + k := by
  intro k
  induction k with
  | zero =>
    intro F _ hv _ p r acc harr _
    exact ⟨[], p, F, by simp [decodeLoop], rfl, harr, hv, Nat.le_refl _, Nat.le_refl _⟩
  | succ k ih =>
    intro F hk hv hd p r acc harr hp
    cases F with
    | nil => simp at hk
    | cons v rest =>
      have hv2 : Obj.isValue v = true ∧ Obj.allValues rest = true := by
        simpa [Obj.allValues] using hv
      have hd2 : Obj.depth v < fuel ∧ Obj.depthAll rest < fuel := by
        simp only [Obj.depthAll] at hd
        omega
      simp only [EncodeAll, List.length_append] at harr hp
      obtain ⟨o, q1, E1, hdec, harr1, hvE1, hdE1⟩ := hstep v hv2.1 hd2.1 p
        (EncodeAll pow256 rest ++ r) (by simpa using harr) (by omega)
      have harr2 : data.arr = q1 ++ EncodeAll pow256 (E1 ++ rest) ++ r := by
        rw [harr1, EncodeAll_append]
        simp
      have hlen2 : q1.length + (EncodeAll pow256 (E1 ++ rest)).length
          = p.length + ((Encode pow256 v).length + (EncodeAll pow256 rest).length) := by
        have h1 := congrArg List.length harr
        have h2 := congrArg List.length harr2
        simp only [List.length_append] at h1 h2
        omega
      have hdF : Obj.depthAll (E1 ++ rest) ≤ Obj.depthAll (v :: rest) := by
        rw [depthAll_append]
        simp only [Obj.depthAll]
        omega
      obtain ⟨os, q, E, hloop, hos, harrE, hvE, hdE, hcount⟩ := ih (E1 ++ rest)
        (by simp only [List.length_append, List.length_cons] at hk ⊢; omega)
        (by rw [allValues_append, hvE1, hv2.2]; rfl)
        (by simp only [Obj.depthAll] at hdF; omega)
        q1 r (acc ++ [o]) harr2 (by omega)
      refine ⟨o :: os, q, E, ?_, by simp [hos], harrE, hvE, Nat.le_trans hdE hdF, ?_⟩
      · simp only [decodeLoop, hdec, hloop]
        simp
      · simp only [List.length_append, List.length_cons] at hcount ⊢
        omega

theorem stream_step (pow256 : Nat) (data : ByteSlice) (hlen : data.len < 2 ^ 64) :
    ∀ (fuel : Nat) (v : Obj), v.isValue = true → v.depth < fuel → ∀ p r : List Byte,
      data.arr = p ++ Encode pow256 v ++ r → p.length + (Encode pow256 v).length ≤ data.len →
      ∃ (o : Obj) (q : List Byte) (E : List Obj),
        DecodeAux fuel data p.length = .ok (o, q.length) ∧
        data.arr = q ++ EncodeAll pow256 E ++ r ∧ Obj.allValues E = true ∧
        Obj.depthAll E ≤ v.depth ∧
        (∀ xs, v = .slice xs → ∃ os, o = .slice os ∧
          os.length = if xs.length < 56 then xs.length else BinaryLength xs.length) := by
  intro fuel
  induction fuel with
  | zero => intro v _ hd; omega
  | succ f ih =>
    intro v hv hd p r harr hp
    cases v with
    | uint8 b =>
      rw [Encode_uint8] at harr hp
      have hb := b.isLt
      have h := Decode_encodeUint pow256 f b.val data p r (by omega) harr hp hlen
      exact ⟨_, p ++ encodeUint pow256 b.val, [], by rw [h, List.length_append],
        by simpa [EncodeAll] using harr, rfl, by simp [Obj.depthAll], by intro xs hx; cases hx⟩
    | uint64 n =>
      rw [Encode_uint64] at harr hp
      have hn : n < 2 ^ 64 := by simpa [Obj.isValue] using hv
      have h := Decode_encodeUint pow256 f n data p r hn harr hp hlen
      exact ⟨_, p ++ encodeUint pow256 n, [], by rw [h, List.length_append],
        by simpa [EncodeAll] using harr, rfl, by simp [Obj.depthAll], by intro xs hx; cases hx⟩
    | bytes t =>
      rw [Encode_bytes] at harr hp
      have h := Decode_encodeString f t data p r harr hp hlen
      exact ⟨_, p ++ encodeString t, [], by rw [h, List.length_append],
        by simpa [EncodeAll] using harr, rfl, by simp [Obj.depthAll], by intro xs hx; cases hx⟩
    | slice xs =>
      have hd2 : Obj.depthAll xs < f := by
        simp only [Obj.depth] at hd
        omega
      have hv2 : Obj.allValues xs = true := by simpa [Obj.isValue] using hv
      have hstep : ∀ v : Obj, v.isValue = true → v.depth < f → ∀ p r : List Byte,
          data.arr = p ++ Encode pow256 v ++ r →
          p.length + (Encode pow256 v).length ≤ data.len →
          ∃ (o : Obj) (q : List Byte) (E : List Obj),
            DecodeAux f data p.length = .ok (o, q.length) ∧
            data.arr = q ++ EncodeAll pow256 E ++ r ∧ Obj.allValues E = true ∧
            Obj.depthAll E ≤ v.depth := by
        intro v hv hd p r harr hp
        obtain ⟨o, q, E, h1, h2, h3, h4, _⟩ := ih v hv hd p r harr hp
        exact ⟨o, q, E, h1, h2, h3, h4⟩
      have hxs := length_le_EncodeAll pow256 xs hv2
      rw [Encode_slice] at harr hp
      rcases Nat.lt_or_ge xs.length 56 with h56 | h56
      · rw [WriteSliceHeader_short h56] at harr hp
        have hb : (toByte (xs.length + 128)).val = xs.length + 128 :=
          toByte_val_of_lt (by omega)
        have hdec := DecodeAux_shortList f data p (EncodeAll pow256 xs ++ r)
          (toByte (xs.length + 128)) (by simpa using harr)
          (by simp only [List.length_append, List.length_singleton] at hp; omega) hlen
          (by rw [hb]; omega) (by rw [hb]; omega)
        have hk : (toByte (xs.length + 128)).val - 128 = xs.length := by rw [hb]; omega
        rw [hk] at hdec
        obtain ⟨os, q, E, hloop, hos, harrE, hvE, hdE, _⟩ := stream_loop pow256 f data hstep
          xs.length xs (Nat.le_refl _) hv2 hd2 (p ++ [toByte (xs.length + 128)]) r []
          (by simpa using harr)
          (by simp only [List.length_append, List.length_singleton] at hp ⊢; omega)
        simp only [List.length_append, List.length_singleton, List.nil_append] at hloop
        refine ⟨.slice os, q, E, by rw [hdec, hloop], harrE, hvE, ?_, ?_⟩
        · simp only [Obj.depth]
          omega
        · intro ys hys
          cases hys
          exact ⟨os, rfl, by rw [if_pos h56, hos]⟩
      · have h64 : xs.length < 2 ^ 64 := by
          simp only [List.length_append] at hp
          omega
        have h8 := BinaryLength_le_eight h64
        have h1 := BinaryLength_ne_zero (show 0 < xs.length by omega)
        rw [WriteSliceHeader_long h56 h64] at harr hp
        have hb : (toByte (BinaryLength xs.length + 183)).val = BinaryLength xs.length + 183 :=
          toByte_val_of_lt (by omega)
        have hdec := DecodeAux_longList f data p (ToBin xs.length 0 ++ EncodeAll pow256 xs ++ r)
          (toByte (BinaryLength xs.length + 183)) (by simpa using harr)
          (by simp only [List.length_append, List.length_cons] at hp; omega) hlen
          (by rw [hb]; omega) (by rw [hb]; omega)
          (by
            rw [hb]
            simp only [List.length_append, List.length_cons, ToBin_length] at hp
            omega)
        have hk : (toByte (BinaryLength xs.length + 183)).val - 183 = BinaryLength xs.length := by
          rw [hb]; omega
        rw [hk] at hdec
        obtain ⟨os, q, E, hloop, hos, harrE, hvE, hdE, _⟩ := stream_loop pow256 f data hstep
          (BinaryLength xs.length) xs (by omega) hv2 hd2
          (p ++ toByte (BinaryLength xs.length + 183) :: ToBin xs.length 0) r []
          (by simpa using harr)
          (by simp only [List.length_append, List.length_cons] at hp ⊢; omega)
        simp only [List.length_append, List.length_cons, ToBin_length, List.nil_append]
          at hloop
        have hpos : p.length + 1 + BinaryLength xs.length
            = p.length + (BinaryLength xs.length + 1) := by omega
        refine ⟨.slice os, q, E, by rw [hdec, hpos, hloop], harrE, hvE, ?_, ?_⟩
        · simp only [Obj.depth]
          omega
        · intro ys hys
          cases hys
          exact ⟨os, rfl, by rw [if_neg (by omega), hos]⟩
    | _ => simp [Obj.isValue] at hv

/-! ## Top-level statements about `Decode` -/

theorem ToBin_vals (n length : Nat) : (ToBin n length).map Fin.val = ToBinarySlice n length := by
  unfold ToBin
  rw [List.map_map]
  have h : ∀ x ∈ ToBinarySlice n length, (Fin.val ∘ toByte) x = id x := by
    intro x hx
    exact toByte_val_of_lt (ToBinarySlice_lt n length x hx)
  rw [List.map_congr_left h, List.map_id]

theorem Decode_Encode_at (pow256 : Nat) (v : Obj) (p r spare : List Byte)
    (hv : v.isValue = true) (hs : v.shortLists = true)
    (hlen : (p ++ Encode pow256 v ++ r).length < 2 ^ 64) :
    Decode ⟨p ++ Encode pow256 v ++ r, spare⟩ p.length
      = .ok (v.decoded, p.length + (Encode pow256 v).length) := by
  unfold Decode
  have hd := depth_le_length pow256 v
  apply DecodeAux_Encode pow256 v hv hs _ _ p (r ++ spare)
  · simp [ByteSlice.arr]
  · simp only [ByteSlice.len, List.length_append]
    omega
  · exact hlen
  · simp only [ByteSlice.len, List.length_append]
    omega

theorem Decode_Encode_stream (pow256 : Nat) (v : Obj) (spare : List Byte)
    (hv : v.isValue = true) (hlen : (Encode pow256 v).length < 2 ^ 64) :
    ∃ (o : Obj) (next : Nat), Decode ⟨Encode pow256 v, spare⟩ 0 = .ok (o, next) ∧
      (∀ xs, v = .slice xs → ∃ os, o = .slice os ∧
        os.length = if xs.length < 56 then xs.length else BinaryLength xs.length) := by
  have hd := depth_le_length pow256 v
  obtain ⟨o, q, E, h1, _, _, _, h5⟩ := stream_step pow256 ⟨Encode pow256 v, spare⟩ hlen
    ((Encode pow256 v).length + 1) v hv (by omega) [] spare (by simp [ByteSlice.arr])
    (by simp [ByteSlice.len])
  exact ⟨o, q.length, h1, h5⟩

/-! ## The fuel of the model -/

theorem decodeLoop_congr (dec dec2 : Nat → Result (Obj × Nat))
    (h : ∀ pos, dec pos ≠ .fuelOut → dec2 pos = dec pos) :
    ∀ (k pos : Nat) (acc : List Obj), decodeLoop dec k pos acc ≠ .fuelOut →
      decodeLoop dec2 k pos acc = decodeLoop dec k pos acc := by
  intro k
  induction k with
  | zero => intro pos acc _; rfl
  | succ k ih =>
    intro pos acc hne
    simp only [decodeLoop] at hne ⊢
    cases hd : dec pos with
    | ok a =>
      rw [h pos (by rw [hd]; intro hc; cases hc), hd]
      rw [hd] at hne
      exact ih _ _ hne
    | panic e =>
      rw [h pos (by rw [hd]; intro hc; cases hc), hd]
    | fuelOut =>
      rw [hd] at hne
      exact absurd rfl hne

/-- More fuel does not change a result that was reached. -/
theorem DecodeAux_fuel_succ (data : ByteSlice) :
    ∀ (fuel pos : Nat), DecodeAux fuel data pos ≠ .fuelOut →
      DecodeAux (fuel + 1) data pos = DecodeAux fuel data pos := by
  intro fuel
  induction fuel with
  | zero => intro pos h; exact absurd rfl h
  | succ f ih =>
    intro pos h
    rw [DecodeAux] at h
    rw [DecodeAux, DecodeAux]
    split
    · rfl
    · rename_i hchk
      rw [if_neg hchk] at h
      split
      · rfl
      · rename_i c hidx
        simp only [hidx] at h
        dsimp only at h ⊢
        repeat' split
        all_goals first
          | rfl
          | (apply decodeLoop_congr _ _ ih
             simp_all)

theorem ByteSlice.index_lt (data : ByteSlice) (pos : Nat) (c : Byte)
    (h : data.index pos = some c) : pos < data.len := by
  unfold ByteSlice.index at h
  unfold ByteSlice.len
  by_contra hge
  rw [List.getElem?_eq_none (by omega)] at h
  cases h

theorem ByteSlice.slice_bounds (data : ByteSlice) (lo hi : Nat) (s : List Byte)
    (h : data.slice lo hi = some s) : lo ≤ hi ∧ hi ≤ data.cap := by
  unfold ByteSlice.slice at h
  by_contra hb
  rw [if_neg hb] at h
  cases h

theorem decodeLoop_progress (dec : Nat → Result (Obj × Nat))
    (h : ∀ q o n, dec q = .ok (o, n) → q < n) :
    ∀ (k s : Nat) (acc : List Obj) (o : Obj) (next : Nat),
      decodeLoop dec k s acc = .ok (o, next) → s ≤ next := by
  intro k
  induction k with
  | zero =>
    intro s acc o next hr
    simp only [decodeLoop] at hr
    cases hr
    exact Nat.le_refl _
  | succ k ih =>
    intro s acc o next hr
    simp only [decodeLoop] at hr
    cases hd : dec s with
    | ok a =>
      obtain ⟨obj, pos1⟩ := a
      rw [hd] at hr
      have h1 := h s obj pos1 hd
      have h2 := ih pos1 _ o next hr
      omega
    | panic e => rw [hd] at hr; cases hr
    | fuelOut => rw [hd] at hr; cases hr

/-- Every call of `Decode` that returns does so at a larger position. -/
theorem DecodeAux_progress (data : ByteSlice) (hlen : data.len < 2 ^ 63) :
    ∀ (fuel pos : Nat) (o : Obj) (next : Nat),
      DecodeAux fuel data pos = .ok (o, next) → pos < next := by
  intro fuel
  induction fuel with
  | zero => intro pos o next h; cases h
  | succ f ih =>
    intro pos o next h
    rw [DecodeAux] at h
    split at h
    · cases h
    · split at h
      · cases h
      · rename_i c hidx
        have hpos := ByteSlice.index_lt data pos c hidx
        have hc := c.isLt
        have hu1 : u64 (pos + 1) = pos + 1 := u64_of_lt (by omega)
        dsimp only at h
        rw [hu1] at h
        split at h
        · cases h
          omega
        · split at h
          · split at h
            · cases h
            · rename_i s hs
              have := ByteSlice.slice_bounds _ _ _ _ hs
              cases h
              omega
          · split at h
            · split at h
              · cases h
              · rename_i s hs
                have := ByteSlice.slice_bounds _ _ _ _ hs
                split at h
                · cases h
                · rename_i s2 hs2
                  have := ByteSlice.slice_bounds _ _ _ _ hs2
                  cases h
                  omega
            · split at h
              · split at h
                · cases h
                · rename_i s hs
                  have := ByteSlice.slice_bounds _ _ _ _ hs
                  cases h
                  omega
              · split at h
                · split at h
                  · cases h
                  · rename_i s hs
                    have := ByteSlice.slice_bounds _ _ _ _ hs
                    split at h
                    · cases h
                    · rename_i s2 hs2
                      have := ByteSlice.slice_bounds _ _ _ _ hs2
                      cases h
                      omega
                · split at h
                  · have := decodeLoop_progress _ ih _ _ _ _ _ h
                    omega
                  · split at h
                    · have hu2 : u64 (pos + 1 + (c.val - 183)) = pos + 1 + (c.val - 183) :=
                        u64_of_lt (by omega)
                      rw [hu2] at h
                      have := decodeLoop_progress _ ih _ _ _ _ _ h
                      omega
                    · cases h

theorem decodeLoop_ne_fuelOut (dec : Nat → Result (Obj × Nat)) (start : Nat)
    (hdec : ∀ q, start ≤ q → dec q ≠ .fuelOut)
    (hprog : ∀ q o n, dec q = .ok (o, n) → q < n) :
    ∀ (k s : Nat) (acc : List Obj), start ≤ s → decodeLoop dec k s acc ≠ .fuelOut := by
  intro k
  induction k with
  | zero => intro s acc _ h; cases h
  | succ k ih =>
    intro s acc hs
    simp only [decodeLoop]
    cases hd : dec s with
    | ok a =>
      obtain ⟨obj, pos1⟩ := a
      have h1 := hprog s obj pos1 hd
      exact ih pos1 _ (by omega)
    | panic e => intro h; cases h
    | fuelOut => exact absurd hd (hdec s hs)

/-- With fuel above the distance from `pos` to the end of the slice the model does not run
out of fuel: it returns or panics as the Go code does. -/
theorem DecodeAux_ne_fuelOut (data : ByteSlice) (hlen : data.len < 2 ^ 63) :
    ∀ (fuel pos : Nat), 0 < fuel → data.len < pos + fuel →
      DecodeAux fuel data pos ≠ .fuelOut := by
  intro fuel
  induction fuel with
  | zero => intro pos h; omega
  | succ f ih =>
    intro pos _ hf
    rw [DecodeAux]
    split
    · intro h; cases h
    · split
      · intro h; cases h
      · rename_i c hidx
        have hpos := ByteSlice.index_lt data pos c hidx
        have hc := c.isLt
        have hu1 : u64 (pos + 1) = pos + 1 := u64_of_lt (by omega)
        have hloop : ∀ (k s : Nat), pos + 1 ≤ s →
            decodeLoop (DecodeAux f data) k s [] ≠ .fuelOut := by
          intro k s hs
          exact decodeLoop_ne_fuelOut (DecodeAux f data) (pos + 1)
            (fun q hq => ih q (by omega) (by omega))
            (DecodeAux_progress data hlen f) k s [] hs
        dsimp only
        repeat' split
        all_goals first
          | (intro h; cases h)
          | (rw [hu1]; exact hloop _ _ (Nat.le_refl _))
          | (have hu2 : u64 (pos + 1 + (c.val - 183)) = pos + 1 + (c.val - 183) :=
               u64_of_lt (by omega)
             rw [hu2]
             exact hloop _ _ (by omega))

/-- The fuel `Decode` gives to the model is enough for every slice and position. -/
theorem Decode_ne_fuelOut (data : ByteSlice) (pos : Nat) (hlen : data.len < 2 ^ 63) :
    Decode data pos ≠ .fuelOut :=
  DecodeAux_ne_fuelOut data hlen (data.len + 1) pos (by omega) (by omega)

/-! ## Main properties -/

/-- C1, as stated, fails: the unsigned 64-bit integer 5 is encoded as the byte 5 and comes
back as the single byte 5, which is a different value of the value model, and the single
byte 200 comes back as the unsigned 64-bit integer 200. -/
theorem roundtrip_type_counterexample :
    (Obj.uint64 5).isValue = true ∧ (Obj.uint64 5).shortLists = true ∧
    Decode ⟨Encode pow256Amd64 (.uint64 5), []⟩ 0 = .ok (.uint8 5, 1) ∧
    Obj.uint8 5 ≠ Obj.uint64 5 ∧
    (Obj.uint8 200).isValue = true ∧ (Obj.uint8 200).shortLists = true ∧
    Decode ⟨Encode pow256Amd64 (.uint8 200), []⟩ 0 = .ok (.uint64 200, 2) ∧
    Obj.uint64 200 ≠ Obj.uint8 200 := by
  refine ⟨rfl, rfl, rfl, ?_, rfl, rfl, rfl, ?_⟩ <;> intro h <;> cases h

/-- C1, amended: for every value `v` of the value model in which no list has 56 or more
items, whatever `uint64(math.Pow(2, 256))` evaluates to and whatever the spare capacity of
the buffer holds, `Decode(Encode(v), 0)` returns `v` with every integer leaf in the type
the decoder gives it (`Obj.decoded`: a number below 24 is a single byte, any other number
an unsigned 64-bit integer, of the same numeric value); byte strings and the list structure
come back unchanged, and the next position is `len(Encode(v))`. -/
theorem Decode_Encode_roundtrip (pow256 : Nat) (v : Obj) (spare : List Byte)
    (hv : v.isValue = true) (hs : v.shortLists = true)
    (hlen : (Encode pow256 v).length < 2 ^ 64) :
    Decode ⟨Encode pow256 v, spare⟩ 0 = .ok (v.decoded, (Encode pow256 v).length) := by
  have h := Decode_Encode_at pow256 v [] [] spare hv hs (by simpa using hlen)
  simpa using h

/-- Witness of `Decode_Encode_roundtrip` on a nested list. -/
theorem Decode_Encode_roundtrip_witness :
    Decode ⟨Encode pow256Amd64
        (.slice [.uint64 5, .uint64 1024, .bytes [1, 2, 3], .slice [.uint8 7], .uint8 200]),
        [9, 9]⟩ 0
      = .ok (.slice [.uint8 5, .uint64 1024, .bytes [1, 2, 3], .slice [.uint8 7], .uint64 200],
          13) :=
  Decode_Encode_roundtrip pow256Amd64
    (.slice [.uint64 5, .uint64 1024, .bytes [1, 2, 3], .slice [.uint8 7], .uint8 200])
    [9, 9] rfl rfl (by decide)

/-- C2: for every list `L` of 56 or more values, `Decode(Encode(L), 0)` returns (it does not
panic) a list whose number of items is `BinaryLength(len(L))`, a number between 1 and 8 and
so different from `len(L)`. -/
theorem Decode_Encode_long_list (pow256 : Nat) (L : List Obj) (spare : List Byte)
    (hv : Obj.allValues L = true) (h56 : 56 ≤ L.length)
    (hlen : (Encode pow256 (.slice L)).length < 2 ^ 64) :
    ∃ (os : List Obj) (next : Nat),
      Decode ⟨Encode pow256 (.slice L), spare⟩ 0 = .ok (.slice os, next) ∧
      os.length = BinaryLength L.length ∧ 1 ≤ os.length ∧ os.length ≤ 8 ∧
      os.length ≠ L.length := by
  have hL : L.length < 2 ^ 64 := by
    have h1 := length_le_EncodeAll pow256 L hv
    rw [Encode_slice, List.length_append] at hlen
    omega
  have h8 := BinaryLength_le_eight hL
  have h1 := BinaryLength_ne_zero (show 0 < L.length by omega)
  obtain ⟨o, next, hdec, hcount⟩ := Decode_Encode_stream pow256 (.slice L) spare
    (by simpa [Obj.isValue] using hv) hlen
  obtain ⟨os, ho, hos⟩ := hcount L rfl
  rw [if_neg (by omega)] at hos
  exact ⟨os, next, by rw [hdec, ho], hos, by omega, by omega, by omega⟩

/-- Witness of `Decode_Encode_long_list` on a list of 56 single bytes: one item comes
back. -/
theorem Decode_Encode_long_list_witness :
    Obj.allValues (List.replicate 56 (Obj.uint8 3)) = true ∧
    56 ≤ (List.replicate 56 (Obj.uint8 3)).length ∧
    ∃ (os : List Obj) (next : Nat),
      Decode ⟨Encode pow256Amd64 (.slice (List.replicate 56 (Obj.uint8 3))), []⟩ 0
        = .ok (.slice os, next) ∧
      os.length = BinaryLength (List.replicate 56 (Obj.uint8 3)).length ∧ 1 ≤ os.length ∧
      os.length ≤ 8 ∧ os.length ≠ (List.replicate 56 (Obj.uint8 3)).length :=
  ⟨by decide, by decide,
    Decode_Encode_long_list pow256Amd64 (List.replicate 56 (Obj.uint8 3)) []
      (by decide) (by decide) (by decide)⟩

/-- C3, the code at the failing input: where `uint64(math.Pow(2, 256))` evaluates to `2^63`,
`Encode(uint64(2^63 + 1))` is the long integer form, tag 56, the length byte 8 and the
eight bytes of the number, and not the byte `8 + 23 = 31` followed by the eight bytes. -/
theorem Encode_uint64_above_pow256 :
    (Encode pow256Amd64 (.uint64 (2 ^ 63 + 1))).map Fin.val
      = [56, 8, 128, 0, 0, 0, 0, 0, 0, 1] ∧
    BinaryLength (2 ^ 63 + 1) + 23 = 31 ∧ ToBinarySlice (2 ^ 63 + 1) 0 = [128, 0, 0, 0, 0, 0, 0, 1] := by
  decide

/-- C4: a byte string `s` of fewer than 56 bytes is encoded as the byte `len(s) + 64`
followed by `s`; a longer one as the byte `BinaryLength(len(s)) + 119`, the minimal
big-endian bytes of `len(s)`, then `s`. A string of 55 bytes has tag 119, a string of 56
bytes has tag 120 followed by the byte 56. A Go `string` is encoded as the `[]byte` is. -/
theorem Encode_byte_string_rule (pow256 : Nat) (s : List Byte) (h64 : s.length < 2 ^ 64) :
    (s.length < 56 →
      (Encode pow256 (.bytes s)).map Fin.val = (s.length + 64) :: s.map Fin.val) ∧
    (56 ≤ s.length →
      (Encode pow256 (.bytes s)).map Fin.val
        = (BinaryLength s.length + 119) :: (ToBinarySlice s.length 0 ++ s.map Fin.val)) ∧
    (s.length = 55 → ((Encode pow256 (.bytes s)).map Fin.val).head? = some 119) ∧
    (s.length = 56 → (Encode pow256 (.bytes s)).map Fin.val = 120 :: 56 :: s.map Fin.val) ∧
    Encode pow256 (.string s) = Encode pow256 (.bytes s) := by
  have h8 := BinaryLength_le_eight h64
  have hshort : s.length < 56 →
      (Encode pow256 (.bytes s)).map Fin.val = (s.length + 64) :: s.map Fin.val := by
    intro h
    rw [Encode_bytes, encodeString_short h, List.map_cons, toByte_val_of_lt (by omega)]
  have hlong : 56 ≤ s.length → (Encode pow256 (.bytes s)).map Fin.val
      = (BinaryLength s.length + 119) :: (ToBinarySlice s.length 0 ++ s.map Fin.val) := by
    intro h
    rw [Encode_bytes, encodeString_long h h64, List.map_cons, List.map_append, ToBin_vals,
      toByte_val_of_lt (by omega)]
  refine ⟨hshort, hlong, ?_, ?_, ?_⟩
  · intro h
    rw [hshort (by omega), h]
    rfl
  · intro h
    rw [hlong (by omega), h]
    rfl
  · simp [Encode]

/-- Witness of `Encode_byte_string_rule` on a three-byte string. -/
theorem Encode_byte_string_rule_witness :
    (Encode pow256Amd64 (.bytes [1, 2, 3])).map Fin.val = [67, 1, 2, 3] :=
  (Encode_byte_string_rule pow256Amd64 [1, 2, 3] (by decide)).1 (by decide)

/-- C5: a list `L` is encoded as a header followed by the encodings of its items in order;
the header is the byte `len(L) + 128` when `L` has fewer than 56 items, and otherwise the
byte `BinaryLength(len(L)) + 183` followed by the minimal big-endian bytes of `len(L)`.
The empty list is `[128]`, a list of 55 items has tag 183, a list of 56 items tag 184. -/
theorem Encode_list_rule (pow256 : Nat) (L : List Obj) (h64 : L.length < 2 ^ 64) :
    (L.length < 56 →
      (Encode pow256 (.slice L)).map Fin.val
        = (L.length + 128) :: ((L.map (Encode pow256)).flatten).map Fin.val) ∧
    (56 ≤ L.length →
      (Encode pow256 (.slice L)).map Fin.val
        = (BinaryLength L.length + 183)
          :: (ToBinarySlice L.length 0 ++ ((L.map (Encode pow256)).flatten).map Fin.val)) ∧
    (Encode pow256 (.slice [])).map Fin.val = [128] ∧
    (L.length = 55 → ((Encode pow256 (.slice L)).map Fin.val).head? = some 183) ∧
    (L.length = 56 → ((Encode pow256 (.slice L)).map Fin.val).head? = some 184) := by
  have h8 := BinaryLength_le_eight h64
  have hshort : L.length < 56 → (Encode pow256 (.slice L)).map Fin.val
      = (L.length + 128) :: ((L.map (Encode pow256)).flatten).map Fin.val := by
    intro h
    rw [Encode_slice, WriteSliceHeader_short h, EncodeAll_eq_flatten, List.singleton_append,
      List.map_cons, toByte_val_of_lt (by omega)]
  have hlong : 56 ≤ L.length → (Encode pow256 (.slice L)).map Fin.val
      = (BinaryLength L.length + 183)
        :: (ToBinarySlice L.length 0 ++ ((L.map (Encode pow256)).flatten).map Fin.val) := by
    intro h
    rw [Encode_slice, WriteSliceHeader_long h h64, EncodeAll_eq_flatten, List.cons_append,
      List.map_cons, List.map_append, ToBin_vals, toByte_val_of_lt (by omega)]
  refine ⟨hshort, hlong, rfl, ?_, ?_⟩
  · intro h
    rw [hshort (by omega), h]
    rfl
  · intro h
    rw [hlong (by omega), h]
    rfl

/-- Witness of `Encode_list_rule` on a list of two items. -/
theorem Encode_list_rule_witness :
    (Encode pow256Amd64 (.slice [.uint64 5, .bytes [1]])).map Fin.val = [130, 5, 65, 1] :=
  (Encode_list_rule pow256Amd64 [.uint64 5, .bytes [1]] (by decide)).1 (by decide)

/-- C6: for every byte string `s`, short form or long form, whose encoding is a buffer of
fewer than `2^64` bytes, `Decode(Encode(s), 0)` returns the byte string `s` and the next
position `len(Encode(s))`; and `Decode([64], 0)` returns the empty byte string and 1. -/
theorem Decode_Encode_byte_string (pow256 : Nat) (s spare : List Byte)
    (hlen : (Encode pow256 (.bytes s)).length < 2 ^ 64) :
    Decode ⟨Encode pow256 (.bytes s), spare⟩ 0
      = .ok (.bytes s, (Encode pow256 (.bytes s)).length) ∧
    Decode ⟨[64], spare⟩ 0 = .ok (.bytes [], 1) := by
  constructor
  · have h := Decode_Encode_at pow256 (.bytes s) [] [] spare rfl rfl (by simpa using hlen)
    simpa [Obj.decoded] using h
  · have h := Decode_Encode_at pow256 (.bytes []) [] [] spare rfl rfl
      (by rw [Encode_bytes]; decide)
    exact h

/-- Witness of `Decode_Encode_byte_string` on a three-byte string. -/
theorem Decode_Encode_byte_string_witness :
    Decode ⟨Encode pow256Amd64 (.bytes [1, 2, 3]), [5]⟩ 0 = .ok (.bytes [1, 2, 3], 4) :=
  (Decode_Encode_byte_string pow256Amd64 [1, 2, 3] [5] (by decide)).1

/-- C7: for every unsigned 64-bit integer `n`, `NewRlpDecoder(Encode(n))` returns an
accessor whose `AsUint()` is `n`, whatever `uint64(math.Pow(2, 256))` evaluates to. -/
theorem AsUint_NewRlpDecoder_Encode (pow256 n : Nat) (spare : List Byte) (hn : n < 2 ^ 64) :
    ∃ attr : RlpDataAttribute,
      NewRlpDecoder ⟨Encode pow256 (.uint64 n), spare⟩ = .ok attr ∧ attr.AsUint = n := by
  have hpos := encodeUint_length_pos pow256 n
  have hle : (encodeUint pow256 n).length ≤ 10 := by
    have h8 := BinaryLength_le_eight hn
    rcases Nat.lt_or_ge n 24 with h24 | h24
    · rw [encodeUint_small pow256 h24]
      simp
    · rcases Nat.lt_or_ge pow256 n with hM | hM
      · rw [encodeUint_long pow256 h24 hM hn]
        simp only [List.length_cons, ToBin_length]
        omega
      · rw [encodeUint_short pow256 h24 hM hn]
        simp only [List.length_cons, ToBin_length]
        omega
  have hdec := Decode_Encode_at pow256 (.uint64 n) [] [] spare
    (by simpa [Obj.isValue] using hn) rfl
    (by rw [Encode_uint64]; simp only [List.nil_append, List.append_nil]; omega)
  simp only [List.nil_append, List.append_nil, List.length_nil, Nat.zero_add] at hdec
  refine ⟨NewRlpDataAttribute (Obj.uint64 n).decoded, ?_, ?_⟩
  · unfold NewRlpDecoder
    rw [if_pos (by rw [Encode_uint64]; simp only [ByteSlice.len]; omega), hdec]
  · simp only [NewRlpDataAttribute, Obj.decoded]
    by_cases h : n < 24
    · rw [if_pos h]
      simp only [RlpDataAttribute.AsUint]
      exact toByte_val_of_lt (by omega)
    · rw [if_neg h]
      rfl

/-- Witness of `AsUint_NewRlpDecoder_Encode` at `n = 2^64 - 1`. -/
theorem AsUint_NewRlpDecoder_Encode_witness :
    ∃ attr : RlpDataAttribute,
      NewRlpDecoder ⟨Encode pow256Amd64 (.uint64 (2 ^ 64 - 1)), []⟩ = .ok attr ∧
      attr.AsUint = 2 ^ 64 - 1 :=
  AsUint_NewRlpDecoder_Encode pow256Amd64 (2 ^ 64 - 1) [] (by decide)

/-- C8: `ToBinarySlice(n, h)` has exactly `BinaryLength(n)` elements, each below 256; it is
empty for `n = 0` and starts with a non-zero element for `n > 0`; `BinaryLength(n)` is the
least `k` with `n < 256^k`; and the hint `h` does not change the result. -/
theorem ToBinarySlice_minimal (n h : Nat) :
    (ToBinarySlice n h).length = BinaryLength n ∧
    (∀ x ∈ ToBinarySlice n h, x < 256) ∧
    (n = 0 → ToBinarySlice n h = []) ∧
    (0 < n → ∃ x rest, ToBinarySlice n h = x :: rest ∧ x ≠ 0) ∧
    n < 256 ^ BinaryLength n ∧
    (∀ k, n < 256 ^ k → BinaryLength n ≤ k) ∧
    ToBinarySlice n h = ToBinarySlice n 0 :=
  ⟨ToBinarySlice_length n h, ToBinarySlice_lt n h,
    fun h0 => by rw [h0]; exact ToBinarySlice_zero h,
    ToBinarySlice_head n h, lt_pow_BinaryLength n, BinaryLength_le_of_lt_pow n,
    ToBinarySlice_hint n h⟩

/-- Witness of `ToBinarySlice_minimal` at `n = 1024` with the hint 7. -/
theorem ToBinarySlice_minimal_witness :
    (ToBinarySlice 1024 7).length = BinaryLength 1024 ∧ ToBinarySlice 1024 7 = [4, 0] ∧
    BinaryLength 1024 = 2 :=
  ⟨(ToBinarySlice_minimal 1024 7).1, by decide, by decide⟩

/-- C9: for every unsigned 64-bit integer `n`, `FromBin` of the bytes of `ToBin(n, 0)` is
`n`. -/
theorem FromBin_ToBin_roundtrip (n : Nat) (hn : n < 2 ^ 64) : FromBin (ToBin n 0) = n :=
  FromBin_ToBin n 0 hn

/-- Witness of `FromBin_ToBin_roundtrip` at `n = 2^64 - 1`. -/
theorem FromBin_ToBin_roundtrip_witness :
    2 ^ 64 - 1 < 2 ^ 64 ∧ FromBin (ToBin (2 ^ 64 - 1) 0) = 2 ^ 64 - 1 :=
  ⟨by decide, FromBin_ToBin_roundtrip (2 ^ 64 - 1) (by decide)⟩

/-- C10, as stated, fails: on the nine bytes `1, 0, 0, 0, 0, 0, 0, 0, 0`, a sequence of at
most 32 bytes, `FromBin` returns 0 while the big-endian sum is `2^64`. -/
theorem FromBin_overflow_counterexample :
    ([1, 0, 0, 0, 0, 0, 0, 0, 0] : List Byte).length ≤ 32 ∧
    FromBin [1, 0, 0, 0, 0, 0, 0, 0, 0] = 0 ∧
    bigEndianSum [1, 0, 0, 0, 0, 0, 0, 0, 0] = 2 ^ 64 := by
  decide

/-- C10, amended: `FromBin(d)` is the big-endian sum of `d` reduced modulo `2^64`, for a
byte sequence of any length; it is the exact sum when `d` has at most 8 bytes; and
`FromBin` of the empty sequence is 0. -/
theorem FromBin_big_endian (d : List Byte) :
    FromBin d = bigEndianSum d % 2 ^ 64 ∧
    (d.length ≤ 8 → FromBin d = bigEndianSum d) ∧
    FromBin [] = 0 :=
  ⟨FromBin_eq_sum_mod d, FromBin_eq_sum_of_le d, FromBin_nil⟩

/-- Witness of `FromBin_big_endian` on eight bytes. -/
theorem FromBin_big_endian_witness :
    FromBin [255, 255, 255, 255, 255, 255, 255, 255] = 2 ^ 64 - 1 ∧
    bigEndianSum [255, 255, 255, 255, 255, 255, 255, 255] = 2 ^ 64 - 1 :=
  ⟨((FromBin_big_endian [255, 255, 255, 255, 255, 255, 255, 255]).2.1 (by decide)).trans
      (by decide), by decide⟩

/-! ## Accessor and the ends of the dispatch -/

theorem Get_not_slice (attr : RlpDataAttribute) (idx : Int)
    (h : ∀ d, attr.dataAttrib ≠ .slice d) :
    attr.Get idx = .ok (NewRlpDataAttribute .nil) := by
  unfold RlpDataAttribute.Get
  split
  · rename_i d hd
    exact absurd hd (h d)
  · rfl

theorem Get_above_length (d : List Obj) (idx : Int) (h : (d.length : Int) < idx) :
    (NewRlpDataAttribute (.slice d)).Get idx = .ok (NewRlpDataAttribute .nil) := by
  simp only [RlpDataAttribute.Get, NewRlpDataAttribute, if_pos h]

theorem Get_in_range (d : List Obj) (i : Nat) (h : i < d.length) :
    (NewRlpDataAttribute (.slice d)).Get i = .ok (NewRlpDataAttribute (d.get ⟨i, h⟩)) := by
  simp only [RlpDataAttribute.Get, NewRlpDataAttribute]
  rw [if_neg (by omega), if_neg (by omega)]
  simp [h]

theorem Get_at_length (d : List Obj) :
    (NewRlpDataAttribute (.slice d)).Get d.length = .panic .indexOutOfRange := by
  simp only [RlpDataAttribute.Get, NewRlpDataAttribute]
  rw [if_neg (by omega), if_neg (by omega)]
  simp

theorem Get_negative (d : List Obj) (idx : Int) (h : idx < 0) :
    (NewRlpDataAttribute (.slice d)).Get idx = .panic .indexOutOfRange := by
  simp only [RlpDataAttribute.Get, NewRlpDataAttribute]
  rw [if_neg (by omega), if_pos h]

theorem DecodeAux_out_of_range (fuel : Nat) (data : ByteSlice) (pos : Nat)
    (hlen : data.len < 2 ^ 63) (hpos : data.len ≤ pos) :
    (0 < data.len → DecodeAux (fuel + 1) data pos = .panic .logPanic) ∧
    (data.len = 0 → pos < 2 ^ 64 → DecodeAux (fuel + 1) data pos = .panic .indexOutOfRange) ∧
    (data.len = 0 → 2 ^ 64 ≤ pos → DecodeAux (fuel + 1) data pos = .panic .logPanic) := by
  refine ⟨?_, ?_, ?_⟩
  · intro h0
    have hchk : pos > u64 (data.len + 2 ^ 64 - 1) := by
      unfold u64
      omega
    rw [DecodeAux, if_pos hchk]
  · intro h0 h64
    have hchk : ¬ pos > u64 (data.len + 2 ^ 64 - 1) := by
      unfold u64
      omega
    have hidx : data.index pos = none := by
      unfold ByteSlice.index
      unfold ByteSlice.len at h0
      exact List.getElem?_eq_none (by omega)
    rw [DecodeAux, if_neg hchk]
    simp only [hidx]
  · intro h0 h64
    have hchk : pos > u64 (data.len + 2 ^ 64 - 1) := by
      unfold u64
      omega
    rw [DecodeAux, if_pos hchk]

theorem DecodeAux_unsupported (fuel : Nat) (data : ByteSlice) (pos : Nat) (c : Byte)
    (hlen : data.len < 2 ^ 63) (hidx : data.index pos = some c) (hc : 192 ≤ c.val) :
    DecodeAux (fuel + 1) data pos = .panic (.unsupported c.val) := by
  have hpos := ByteSlice.index_lt data pos c hidx
  have hchk : ¬ pos > u64 (data.len + 2 ^ 64 - 1) := by
    unfold u64
    omega
  simp only [DecodeAux, if_neg hchk, hidx,
    if_neg (show ¬ c.val < 24 by omega), if_neg (show ¬ c.val < 56 by omega),
    if_neg (show ¬ c.val < 64 by omega), if_neg (show ¬ c.val < 120 by omega),
    if_neg (show ¬ c.val < 128 by omega), if_neg (show ¬ c.val < 184 by omega),
    if_neg (show ¬ c.val < 192 by omega)]

theorem DecodeAux_literal (fuel : Nat) (data : ByteSlice) (pos : Nat) (c : Byte)
    (hlen : data.len < 2 ^ 63) (hidx : data.index pos = some c) (hc : c.val < 24) :
    DecodeAux (fuel + 1) data pos = .ok (.uint8 c, pos + 1) := by
  have hpos := ByteSlice.index_lt data pos c hidx
  have hchk : ¬ pos > u64 (data.len + 2 ^ 64 - 1) := by
    unfold u64
    omega
  have hu : u64 (pos + 1) = pos + 1 := u64_of_lt (by omega)
  simp only [DecodeAux, if_neg hchk, hidx, if_pos hc, hu]

/-! ## Truncated input -/

theorem ByteSlice.slice_none (data : ByteSlice) (lo hi : Nat)
    (h : hi < lo ∨ data.cap < hi) : data.slice lo hi = none := by
  unfold ByteSlice.slice
  rw [if_neg (by omega)]

theorem FromBin_lt (d : List Byte) : FromBin d < 2 ^ 64 := by
  rw [FromBin_eq_sum_mod]
  exact Nat.mod_lt _ (by norm_num)

theorem DecodeAux_short_truncated (fuel : Nat) (data : ByteSlice) (pos : Nat) (c : Byte)
    (hlen : data.len < 2 ^ 63) (hidx : data.index pos = some c) :
    (24 ≤ c.val → c.val < 56 → data.cap < pos + 1 + (c.val - 23) →
      DecodeAux (fuel + 1) data pos = .panic .sliceBounds) ∧
    (64 ≤ c.val → c.val < 120 → data.cap < pos + 1 + (c.val - 64) →
      DecodeAux (fuel + 1) data pos = .panic .sliceBounds) := by
  have hpos := ByteSlice.index_lt data pos c hidx
  have hc := c.isLt
  have hchk : ¬ pos > u64 (data.len + 2 ^ 64 - 1) := by
    unfold u64
    omega
  have hu : u64 (pos + 1) = pos + 1 := u64_of_lt (by omega)
  constructor
  · intro h1 h2 hcap
    have hu2 : u64 (pos + 1 + (c.val - 23)) = pos + 1 + (c.val - 23) := u64_of_lt (by omega)
    have hs := ByteSlice.slice_none data (pos + 1) (pos + 1 + (c.val - 23)) (Or.inr hcap)
    simp only [DecodeAux, if_neg hchk, hidx, if_neg (show ¬ c.val < 24 by omega), if_pos h2,
      hu, hu2, hs]
  · intro h1 h2 hcap
    have hu2 : u64 (pos + 1 + (c.val - 64)) = pos + 1 + (c.val - 64) := u64_of_lt (by omega)
    have hs := ByteSlice.slice_none data (pos + 1) (pos + 1 + (c.val - 64)) (Or.inr hcap)
    simp only [DecodeAux, if_neg hchk, hidx, if_neg (show ¬ c.val < 24 by omega),
      if_neg (show ¬ c.val < 56 by omega), if_neg (show ¬ c.val < 64 by omega), if_pos h2,
      hu, hu2, hs]

theorem DecodeAux_long_truncated (fuel : Nat) (data : ByteSlice) (pos : Nat) (c : Byte)
    (hlen : data.len < 2 ^ 63) (hidx : data.index pos = some c) :
    (56 ≤ c.val → c.val < 64 → data.cap < pos + 1 + (c.val - 55) →
      DecodeAux (fuel + 1) data pos = .panic .sliceBounds) ∧
    (120 ≤ c.val → c.val < 128 → data.cap < pos + 1 + (c.val - 119) →
      DecodeAux (fuel + 1) data pos = .panic .sliceBounds) ∧
    (56 ≤ c.val → c.val < 64 → ∀ s, data.slice (pos + 1) (pos + 1 + (c.val - 55)) = some s →
      data.cap < pos + 1 + (c.val - 55) + FromBin s →
      DecodeAux (fuel + 1) data pos = .panic .sliceBounds) ∧
    (120 ≤ c.val → c.val < 128 → ∀ s,
      data.slice (pos + 1) (pos + 1 + (c.val - 119)) = some s →
      data.cap < pos + 1 + (c.val - 119) + FromBin s →
      DecodeAux (fuel + 1) data pos = .panic .sliceBounds) := by
  have hpos := ByteSlice.index_lt data pos c hidx
  have hc := c.isLt
  have hchk : ¬ pos > u64 (data.len + 2 ^ 64 - 1) := by
    unfold u64
    omega
  have hu : u64 (pos + 1) = pos + 1 := u64_of_lt (by omega)
  refine ⟨?_, ?_, ?_, ?_⟩
  · intro h1 h2 hcap
    have hu2 : u64 (pos + 1 + (c.val - 55)) = pos + 1 + (c.val - 55) := u64_of_lt (by omega)
    have hs := ByteSlice.slice_none data (pos + 1) (pos + 1 + (c.val - 55)) (Or.inr hcap)
    simp only [DecodeAux, if_neg hchk, hidx, if_neg (show ¬ c.val < 24 by omega),
      if_neg (show ¬ c.val < 56 by omega), if_pos h2, hu, hu2, hs]
  · intro h1 h2 hcap
    have hu2 : u64 (pos + 1 + (c.val - 119)) = pos + 1 + (c.val - 119) :=
      u64_of_lt (by omega)
    have hs := ByteSlice.slice_none data (pos + 1) (pos + 1 + (c.val - 119)) (Or.inr hcap)
    simp only [DecodeAux, if_neg hchk, hidx, if_neg (show ¬ c.val < 24 by omega),
      if_neg (show ¬ c.val < 56 by omega), if_neg (show ¬ c.val < 64 by omega),
      if_neg (show ¬ c.val < 120 by omega), if_pos h2, hu, hu2, hs]
  · intro h1 h2 s hs hcap
    have hu2 : u64 (pos + 1 + (c.val - 55)) = pos + 1 + (c.val - 55) := u64_of_lt (by omega)
    have hb2 := FromBin_lt s
    have hs2 := ByteSlice.slice_none data (pos + 1 + (c.val - 55))
      (u64 (pos + 1 + (c.val - 55) + FromBin s)) (by unfold u64; omega)
    simp only [DecodeAux, if_neg hchk, hidx, if_neg (show ¬ c.val < 24 by omega),
      if_neg (show ¬ c.val < 56 by omega), if_pos h2, hu, hu2, hs, hs2]
  · intro h1 h2 s hs hcap
    have hu2 : u64 (pos + 1 + (c.val - 119)) = pos + 1 + (c.val - 119) :=
      u64_of_lt (by omega)
    have hb2 := FromBin_lt s
    have hs2 := ByteSlice.slice_none data (pos + 1 + (c.val - 119))
      (u64 (pos + 1 + (c.val - 119) + FromBin s)) (by unfold u64; omega)
    simp only [DecodeAux, if_neg hchk, hidx, if_neg (show ¬ c.val < 24 by omega),
      if_neg (show ¬ c.val < 56 by omega), if_neg (show ¬ c.val < 64 by omega),
      if_neg (show ¬ c.val < 120 by omega), if_pos h2, hu, hu2, hs, hs2]

/-! ## Decimal text and first bytes -/

theorem decimalValue_append (a : List Byte) (d : Byte) :
    decimalValue (a ++ [d]) = decimalValue a * 10 + (d.val - 48) := by
  simp [decimalValue]

theorem decimalDigits_spec : ∀ (fuel n : Nat), n < fuel →
    decimalValue (decimalDigits fuel n) = n ∧
    (∀ d ∈ decimalDigits fuel n, 48 ≤ d.val ∧ d.val ≤ 57) ∧
    1 ≤ (decimalDigits fuel n).length := by
  intro fuel
  induction fuel with
  | zero => intro n h; omega
  | succ f ih =>
    intro n hn
    rw [decimalDigits]
    by_cases h10 : n < 10
    · rw [if_pos h10]
      have hv : (toByte (48 + n)).val = 48 + n := toByte_val_of_lt (by omega)
      refine ⟨?_, ?_, by simp⟩
      · simp only [decimalValue, List.foldl_cons, List.foldl_nil, hv]
        omega
      · intro d hd
        have : d = toByte (48 + n) := by simpa using hd
        rw [this, hv]
        omega
    · rw [if_neg h10]
      obtain ⟨h1, h2, h3⟩ := ih (n / 10) (by omega)
      have hv : (toByte (48 + n % 10)).val = 48 + n % 10 := toByte_val_of_lt (by omega)
      refine ⟨?_, ?_, by simp⟩
      · rw [decimalValue_append, h1, hv]
        omega
      · intro d hd
        rcases List.mem_append.mp hd with h | h
        · exact h2 d h
        · have : d = toByte (48 + n % 10) := by simpa using h
          rw [this, hv]
          omega

theorem encodeString_head (t : List Byte) :
    ∃ tag rest, encodeString t = tag :: rest ∧ 64 ≤ tag.val ∧ tag.val < 128 := by
  unfold encodeString
  by_cases h : t.length < 56
  · rw [if_pos h, runeString_of_lt (by omega)]
    exact ⟨toByte (t.length + 64), t, rfl, by rw [toByte_val_of_lt (by omega)]; omega,
      by rw [toByte_val_of_lt (by omega)]; omega⟩
  · rw [if_neg h]
    have h8 : (ToBin (u64 t.length) 0).length ≤ 8 := by
      rw [ToBin_length]
      exact BinaryLength_le_eight (Nat.mod_lt _ (by norm_num))
    simp only []
    rw [runeString_of_lt (by omega)]
    exact ⟨toByte ((ToBin (u64 t.length) 0).length + 119), ToBin (u64 t.length) 0 ++ t,
      by simp, by rw [toByte_val_of_lt (by omega)]; omega,
      by rw [toByte_val_of_lt (by omega)]; omega⟩

theorem encodeUint_head (pow256 n : Nat) (hn : n < 2 ^ 64) :
    ∃ tag rest, encodeUint pow256 n = tag :: rest ∧ tag.val < 64 := by
  have h8 := BinaryLength_le_eight hn
  rcases Nat.lt_or_ge n 24 with h24 | h24
  · rw [encodeUint_small pow256 h24]
    exact ⟨toByte n, [], rfl, by rw [toByte_val_of_lt (by omega)]; omega⟩
  · rcases Nat.lt_or_ge pow256 n with hM | hM
    · rw [encodeUint_long pow256 h24 hM hn]
      exact ⟨toByte 56, _, rfl, by decide⟩
    · rw [encodeUint_short pow256 h24 hM hn]
      exact ⟨toByte (BinaryLength n + 23), _, rfl,
        by rw [toByte_val_of_lt (by omega)]; omega⟩

/-! ## Where a returning call ends, and how deep it nests -/

theorem ByteSlice.len_le_cap (data : ByteSlice) : data.len ≤ data.cap := by
  unfold ByteSlice.len ByteSlice.cap
  omega

theorem decodeLoop_bound (dec : Nat → Result (Obj × Nat)) (B : Nat)
    (h : ∀ q o n, dec q = .ok (o, n) → n ≤ B) :
    ∀ (k s : Nat) (acc : List Obj) (o : Obj) (next : Nat),
      decodeLoop dec k s acc = .ok (o, next) → (k = 0 ∧ next = s) ∨ next ≤ B := by
  intro k
  induction k with
  | zero =>
    intro s acc o next hr
    simp only [decodeLoop] at hr
    cases hr
    exact Or.inl ⟨rfl, rfl⟩
  | succ k ih =>
    intro s acc o next hr
    simp only [decodeLoop] at hr
    cases hd : dec s with
    | ok a =>
      obtain ⟨obj, pos1⟩ := a
      rw [hd] at hr
      have h1 := h s obj pos1 hd
      rcases ih pos1 _ o next hr with ⟨_, h2⟩ | h2
      · exact Or.inr (by omega)
      · exact Or.inr h2
    | panic e => rw [hd] at hr; cases hr
    | fuelOut => rw [hd] at hr; cases hr

/-- Every call of `Decode` that returns ends at or before the capacity of the slice. -/
theorem DecodeAux_next_le_cap (data : ByteSlice) (hlen : data.len < 2 ^ 63) :
    ∀ (fuel pos : Nat) (o : Obj) (next : Nat),
      DecodeAux fuel data pos = .ok (o, next) → next ≤ data.cap := by
  intro fuel
  induction fuel with
  | zero => intro pos o next h; cases h
  | succ f ih =>
    intro pos o next h
    rw [DecodeAux] at h
    split at h
    · cases h
    · split at h
      · cases h
      · rename_i c hidx
        have hpos := ByteSlice.index_lt data pos c hidx
        have hcap := ByteSlice.len_le_cap data
        have hc := c.isLt
        have hu1 : u64 (pos + 1) = pos + 1 := u64_of_lt (by omega)
        dsimp only at h
        rw [hu1] at h
        split at h
        · cases h
          omega
        · split at h
          · split at h
            · cases h
            · rename_i s hs
              have := ByteSlice.slice_bounds _ _ _ _ hs
              cases h
              omega
          · split at h
            · split at h
              · cases h
              · rename_i s hs
                split at h
                · cases h
                · rename_i s2 hs2
                  have := ByteSlice.slice_bounds _ _ _ _ hs2
                  cases h
                  omega
            · split at h
              · split at h
                · cases h
                · rename_i s hs
                  have := ByteSlice.slice_bounds _ _ _ _ hs
                  cases h
                  omega
              · split at h
                · split at h
                  · cases h
                  · rename_i s hs
                    split at h
                    · cases h
                    · rename_i s2 hs2
                      have := ByteSlice.slice_bounds _ _ _ _ hs2
                      cases h
                      omega
                · split at h
                  · rcases decodeLoop_bound _ data.cap ih _ _ _ _ _ h with ⟨_, h2⟩ | h2
                    · omega
                    · exact h2
                  · split at h
                    · rcases decodeLoop_bound _ data.cap ih _ _ _ _ _ h with ⟨h1, _⟩ | h2
                      · omega
                      · exact h2
                    · cases h

theorem decodeLoop_ok_congr (dec dec2 : Nat → Result (Obj × Nat)) (start : Nat)
    (hprog : ∀ q o n, dec q = .ok (o, n) → q < n)
    (h : ∀ q, start ≤ q → ∀ r, dec q = .ok r → dec2 q = .ok r) :
    ∀ (k s : Nat) (acc : List Obj) (r : Obj × Nat), start ≤ s →
      decodeLoop dec k s acc = .ok r → decodeLoop dec2 k s acc = .ok r := by
  intro k
  induction k with
  | zero => intro s acc r _ hr; exact hr
  | succ k ih =>
    intro s acc r hs hr
    simp only [decodeLoop] at hr ⊢
    cases hd : dec s with
    | ok a =>
      obtain ⟨obj, pos1⟩ := a
      rw [hd] at hr
      rw [h s hs _ hd]
      exact ih pos1 _ r (by have := hprog s obj pos1 hd; omega) hr
    | panic e => rw [hd] at hr; cases hr
    | fuelOut => rw [hd] at hr; cases hr

theorem DecodeAux_ok_pos_lt (data : ByteSlice) (fuel pos : Nat) (r : Obj × Nat)
    (h : DecodeAux fuel data pos = .ok r) : pos < data.len := by
  cases fuel with
  | zero => cases h
  | succ f =>
    rw [DecodeAux] at h
    split at h
    · cases h
    · split at h
      · cases h
      · rename_i c hidx
        exact ByteSlice.index_lt data pos c hidx

/-- A call of `Decode` at `pos` that returns nests at most `len(data) - pos` calls. -/
theorem DecodeAux_ok_fuel (data : ByteSlice) (hlen : data.len < 2 ^ 63) :
    ∀ (F pos : Nat) (r : Obj × Nat), DecodeAux F data pos = .ok r →
      ∀ fuel, data.len ≤ pos + fuel → DecodeAux fuel data pos = .ok r := by
  intro F
  induction F with
  | zero => intro pos r h; cases h
  | succ F ih =>
    intro pos r h fuel hf
    have hpos := DecodeAux_ok_pos_lt data _ pos r h
    obtain ⟨f, rfl⟩ : ∃ f, fuel = f + 1 := ⟨fuel - 1, by omega⟩
    have hloop : ∀ (k s : Nat) (r : Obj × Nat), pos + 1 ≤ s →
        decodeLoop (DecodeAux F data) k s [] = .ok r →
        decodeLoop (DecodeAux f data) k s [] = .ok r := by
      intro k s r hs hr
      exact decodeLoop_ok_congr (DecodeAux F data) (DecodeAux f data) (pos + 1)
        (DecodeAux_progress data hlen F)
        (fun q hq r hr => ih q r hr f (by omega)) k s [] r hs hr
    have hu1 : u64 (pos + 1) = pos + 1 := u64_of_lt (by omega)
    rw [DecodeAux] at h ⊢
    split at h
    · cases h
    · rename_i hchk
      rw [if_neg hchk]
      split at h
      · cases h
      · rename_i c hidx
        have hc := c.isLt
        have hu2 : u64 (pos + 1 + (c.val - 183)) = pos + 1 + (c.val - 183) :=
          u64_of_lt (by omega)
        simp only [hidx]
        dsimp only at h ⊢
        rw [hu1] at h ⊢
        rw [hu2] at h ⊢
        repeat' split at h
        all_goals first
          | cases h; done
          | (simp only [*, if_true, if_false]; done)
          | (simp only [*, if_true, if_false]
             exact hloop _ _ _ (by omega) h)


/-! ## Main properties, continued -/

/-- C11, the code at the failing inputs: the guard of `Get` is `len(d) < idx`, so `Get(0)` on
the empty list, `Get(1)` on a list of one item and `Get(-1)` reach the index expression
`d[idx]` and panic instead of returning an accessor that wraps the absent value. -/
theorem Get_guard_off_by_one :
    (NewRlpDataAttribute (.slice [])).Get 0 = .panic .indexOutOfRange ∧
    (NewRlpDataAttribute (.slice [.uint8 7])).Get 1 = .panic .indexOutOfRange ∧
    (NewRlpDataAttribute (.slice [.uint8 7])).Get (-1) = .panic .indexOutOfRange ∧
    (NewRlpDataAttribute (.slice [.uint8 7])).Get 2 = .ok (NewRlpDataAttribute .nil) ∧
    (NewRlpDataAttribute (.slice [.uint8 7])).Get 0 = .ok (NewRlpDataAttribute (.uint8 7)) ∧
    (NewRlpDataAttribute (.bytes [7])).Get 0 = .ok (NewRlpDataAttribute .nil) :=
  ⟨rfl, rfl, rfl, rfl, rfl, rfl⟩

/-- C12, as stated, fails: `Decode([56], 0)` does not yield an error value, it panics (slice
bounds out of range). -/
theorem Decode_truncated_counterexample :
    Decode ⟨[56], []⟩ 0 = .panic .sliceBounds ∧
    (∀ r : Obj × Nat, Decode ⟨[56], []⟩ 0 ≠ .ok r) := by
  refine ⟨rfl, ?_⟩
  intro r h
  have h2 : Decode ⟨[56], []⟩ 0 = .panic .sliceBounds := rfl
  rw [h2] at h
  cases h

/-- C12, amended: for every buffer and in-range position whose tag byte (24 to 127, the
integer and byte-string forms) declares a length field or a payload that extends past the
capacity of the buffer, `Decode` panics (slice bounds out of range) and returns no value;
there is no recoverable error. -/
theorem Decode_truncated_panics (data : ByteSlice) (pos : Nat) (c : Byte)
    (hlen : data.len < 2 ^ 63) (hidx : data.index pos = some c) :
    (24 ≤ c.val → c.val < 56 → data.cap < pos + 1 + (c.val - 23) →
      Decode data pos = .panic .sliceBounds) ∧
    (64 ≤ c.val → c.val < 120 → data.cap < pos + 1 + (c.val - 64) →
      Decode data pos = .panic .sliceBounds) ∧
    (56 ≤ c.val → c.val < 64 → data.cap < pos + 1 + (c.val - 55) →
      Decode data pos = .panic .sliceBounds) ∧
    (120 ≤ c.val → c.val < 128 → data.cap < pos + 1 + (c.val - 119) →
      Decode data pos = .panic .sliceBounds) ∧
    (56 ≤ c.val → c.val < 64 → ∀ s, data.slice (pos + 1) (pos + 1 + (c.val - 55)) = some s →
      data.cap < pos + 1 + (c.val - 55) + FromBin s →
      Decode data pos = .panic .sliceBounds) ∧
    (120 ≤ c.val → c.val < 128 → ∀ s,
      data.slice (pos + 1) (pos + 1 + (c.val - 119)) = some s →
      data.cap < pos + 1 + (c.val - 119) + FromBin s →
      Decode data pos = .panic .sliceBounds) :=
  have h1 := DecodeAux_short_truncated data.len data pos c hlen hidx
  have h2 := DecodeAux_long_truncated data.len data pos c hlen hidx
  ⟨h1.1, h1.2, h2.1, h2.2.1, h2.2.2.1, h2.2.2.2⟩

/-- Witness of `Decode_truncated_panics`: the tag 66 declares two bytes, one is there. -/
theorem Decode_truncated_panics_witness :
    Decode ⟨[66, 1], []⟩ 0 = .panic .sliceBounds :=
  (Decode_truncated_panics ⟨[66, 1], []⟩ 0 66 (by decide) rfl).2.1
    (by decide) (by decide) (by decide)

/-- C13: for every buffer, the empty one included, and every position at or past its
length, `Decode` panics and returns no value: through `log.Panicf` when the buffer is not
empty, through the index expression `data[pos]` when it is. -/
theorem Decode_out_of_range (data : ByteSlice) (pos : Nat) (hlen : data.len < 2 ^ 63)
    (hpos : data.len ≤ pos) :
    (∃ p, Decode data pos = .panic p) ∧
    (0 < data.len → Decode data pos = .panic .logPanic) ∧
    (data.len = 0 → pos < 2 ^ 64 → Decode data pos = .panic .indexOutOfRange) := by
  obtain ⟨h1, h2, h3⟩ := DecodeAux_out_of_range data.len data pos hlen hpos
  refine ⟨?_, h1, h2⟩
  rcases Nat.eq_zero_or_pos data.len with h0 | h0
  · rcases Nat.lt_or_ge pos (2 ^ 64) with h64 | h64
    · exact ⟨_, h2 h0 h64⟩
    · exact ⟨_, h3 h0 h64⟩
  · exact ⟨_, h1 h0⟩

/-- Witness of `Decode_out_of_range` on the empty buffer and on a buffer of one byte. -/
theorem Decode_out_of_range_witness :
    Decode ⟨[], []⟩ 0 = .panic .indexOutOfRange ∧ Decode ⟨[5], []⟩ 1 = .panic .logPanic :=
  ⟨(Decode_out_of_range ⟨[], []⟩ 0 (by decide) (by decide)).2.2 rfl (by decide),
    (Decode_out_of_range ⟨[5], []⟩ 1 (by decide) (by decide)).2.1 (by decide)⟩

/-- C14: at an in-range position whose byte is 192 or more, `Decode` fails with the panic
for an unsupported byte and returns no value; at an in-range position whose byte is below
24 it returns that byte as a single byte and the next position `pos + 1`. -/
theorem Decode_unsupported_tag (data : ByteSlice) (pos : Nat) (c : Byte)
    (hlen : data.len < 2 ^ 63) (hidx : data.index pos = some c) :
    (192 ≤ c.val → Decode data pos = .panic (.unsupported c.val)) ∧
    (c.val < 24 → Decode data pos = .ok (.uint8 c, pos + 1)) :=
  ⟨DecodeAux_unsupported data.len data pos c hlen hidx,
    DecodeAux_literal data.len data pos c hlen hidx⟩

/-- Witness of `Decode_unsupported_tag` on the bytes 200 and 23. -/
theorem Decode_unsupported_tag_witness :
    Decode ⟨[5, 200], []⟩ 1 = .panic (.unsupported 200) ∧
    Decode ⟨[5, 23], []⟩ 1 = .ok (.uint8 23, 2) :=
  ⟨(Decode_unsupported_tag ⟨[5, 200], []⟩ 1 200 (by decide) rfl).1 (by decide),
    (Decode_unsupported_tag ⟨[5, 23], []⟩ 1 23 (by decide) rfl).2 (by decide)⟩

theorem encodeUint_length_le (pow256 n : Nat) (hn : n < 2 ^ 64) :
    (encodeUint pow256 n).length ≤ 10 := by
  have h8 := BinaryLength_le_eight hn
  rcases Nat.lt_or_ge n 24 with h24 | h24
  · rw [encodeUint_small pow256 h24]
    simp
  · rcases Nat.lt_or_ge pow256 n with hM | hM
    · rw [encodeUint_long pow256 h24 hM hn]
      simp only [List.length_cons, ToBin_length]
      omega
    · rw [encodeUint_short pow256 h24 hM hn]
      simp only [List.length_cons, ToBin_length]
      omega

theorem NewRlpDecoder_encodeUint (pow256 n : Nat) (spare : List Byte) (hn : n < 2 ^ 64) :
    ∃ attr : RlpDataAttribute,
      NewRlpDecoder ⟨encodeUint pow256 n, spare⟩ = .ok attr ∧ attr.AsUint = n := by
  have hpos := encodeUint_length_pos pow256 n
  have hle := encodeUint_length_le pow256 n hn
  have hdec := Decode_encodeUint pow256 (encodeUint pow256 n).length n
    ⟨encodeUint pow256 n, spare⟩ [] spare hn (by simp [ByteSlice.arr])
    (by simp [ByteSlice.len]) (by simp only [ByteSlice.len]; omega)
  simp only [List.length_nil, Nat.zero_add] at hdec
  refine ⟨NewRlpDataAttribute (if n < 24 then Obj.uint8 (toByte n) else Obj.uint64 n), ?_, ?_⟩
  · unfold NewRlpDecoder Decode
    rw [if_pos (by simp only [ByteSlice.len]; omega)]
    simp only [ByteSlice.len] at hdec ⊢
    rw [hdec]
  · by_cases h : n < 24
    · rw [if_pos h]
      simp only [NewRlpDataAttribute, RlpDataAttribute.AsUint]
      exact toByte_val_of_lt (by omega)
    · rw [if_neg h]
      rfl

/-- C15, as stated, fails: `Encode(-1)` returns bytes, the encoding of the unsigned integer
`4294967295`. -/
theorem Encode_negative_int_counterexample :
    (Encode pow256Amd64 (.int (-1))).map Fin.val = [27, 255, 255, 255, 255] ∧
    Encode pow256Amd64 (.int (-1)) = Encode pow256Amd64 (.uint32 4294967295) := by
  decide

/-- C15, amended: for every negative native integer `n`, `Encode(n)` reports no error: it
returns the bytes that encode the unsigned integer `uint32(n)`, the number `m` between 0 and
`2^32 - 1` congruent to `n` modulo `2^32` (`n + 2^32` when `n >= -2^32`), which is not `n`;
decoding those bytes gives an accessor whose `AsUint()` is `m`. -/
theorem Encode_negative_int_coerced (pow256 : Nat) (n : Int) (spare : List Byte)
    (hn : n < 0) :
    ∃ m : Nat, (m : Int) = n % 2 ^ 32 ∧ m < 2 ^ 32 ∧ (m : Int) ≠ n ∧
      (-(2 : Int) ^ 32 ≤ n → (m : Int) = n + 2 ^ 32) ∧
      Encode pow256 (.int n) = Encode pow256 (.uint32 m) ∧
      Encode pow256 (.int n) = Encode pow256 (.uint64 m) ∧
      1 ≤ (Encode pow256 (.int n)).length ∧
      ∃ attr : RlpDataAttribute,
        NewRlpDecoder ⟨Encode pow256 (.int n), spare⟩ = .ok attr ∧ attr.AsUint = m := by
  have h1 : 0 ≤ n % 2 ^ 32 := Int.emod_nonneg n (by norm_num)
  have h2 : n % 2 ^ 32 < 2 ^ 32 := Int.emod_lt_of_pos n (by norm_num)
  have hm : (((n % 2 ^ 32).toNat : Nat) : Int) = n % 2 ^ 32 := Int.toNat_of_nonneg h1
  have henc : Encode pow256 (.int n) = encodeUint pow256 (n % 2 ^ 32).toNat := by
    simp [Encode]
  have hlt : (n % 2 ^ 32).toNat < 2 ^ 32 := by omega
  refine ⟨(n % 2 ^ 32).toNat, hm, hlt, by omega, ?_, ?_, ?_, ?_, ?_⟩
  · intro hlow
    rw [hm]
    omega
  · rw [henc]
    simp [Encode]
  · rw [henc, Encode_uint64]
  · rw [henc]
    exact encodeUint_length_pos _ _
  · rw [henc]
    exact NewRlpDecoder_encodeUint pow256 _ spare (by omega)

/-- Witness of `Encode_negative_int_coerced` at `n = -1`: the bytes of `4294967295`. -/
theorem Encode_negative_int_coerced_witness :
    ∃ m : Nat, (m : Int) = (-1 : Int) % 2 ^ 32 ∧ m < 2 ^ 32 ∧ (m : Int) ≠ -1 ∧
      (-(2 : Int) ^ 32 ≤ -1 → (m : Int) = -1 + 2 ^ 32) ∧
      Encode pow256Amd64 (.int (-1)) = Encode pow256Amd64 (.uint32 m) ∧
      Encode pow256Amd64 (.int (-1)) = Encode pow256Amd64 (.uint64 m) ∧
      1 ≤ (Encode pow256Amd64 (.int (-1))).length ∧
      ∃ attr : RlpDataAttribute,
        NewRlpDecoder ⟨Encode pow256Amd64 (.int (-1)), []⟩ = .ok attr ∧ attr.AsUint = m :=
  Encode_negative_int_coerced pow256Amd64 (-1) [] (by decide)

/-- C16: the accessor that wraps a decoded byte string `s` never fails and returns the
defaults for requests of another shape: `AsSlice()` is empty, `Length()`, `AsUint()` and
`AsByte()` are 0, `Get(idx)` wraps the absent value; `AsBytes()` is `s`. The accessor is the
one `NewRlpDecoder` returns on `Encode(s)`. -/
theorem accessor_defaults_byte_string (pow256 : Nat) (s spare : List Byte) :
    (NewRlpDataAttribute (.bytes s)).AsSlice = [] ∧
    (NewRlpDataAttribute (.bytes s)).Length = 0 ∧
    (NewRlpDataAttribute (.bytes s)).AsUint = 0 ∧
    (NewRlpDataAttribute (.bytes s)).AsByte = 0 ∧
    (∀ idx : Int, (NewRlpDataAttribute (.bytes s)).Get idx = .ok (NewRlpDataAttribute .nil)) ∧
    (NewRlpDataAttribute .nil).IsNil = true ∧
    (NewRlpDataAttribute (.bytes s)).AsBytes = s ∧
    ((Encode pow256 (.bytes s)).length < 2 ^ 64 →
      NewRlpDecoder ⟨Encode pow256 (.bytes s), spare⟩ = .ok (NewRlpDataAttribute (.bytes s))) := by
  refine ⟨rfl, rfl, rfl, rfl, fun _ => rfl, rfl, rfl, ?_⟩
  intro hlen
  have hpos := encodeString_length_pos s
  have hdec := Decode_Encode_at pow256 (.bytes s) [] [] spare rfl rfl (by simpa using hlen)
  simp only [List.nil_append, List.append_nil, List.length_nil, Nat.zero_add] at hdec
  unfold NewRlpDecoder
  rw [if_pos (by rw [Encode_bytes]; simp only [ByteSlice.len]; omega), hdec]
  rfl

/-- Witness of `accessor_defaults_byte_string` on a three-byte string. -/
theorem accessor_defaults_byte_string_witness :
    NewRlpDecoder ⟨Encode pow256Amd64 (.bytes [1, 2, 3]), []⟩
      = .ok (NewRlpDataAttribute (.bytes [1, 2, 3])) ∧
    (NewRlpDataAttribute (.bytes [1, 2, 3])).Get 0 = .ok (NewRlpDataAttribute .nil) :=
  ⟨(accessor_defaults_byte_string pow256Amd64 [1, 2, 3] []).2.2.2.2.2.2.2 (by decide),
    (accessor_defaults_byte_string pow256Amd64 [1, 2, 3] []).2.2.2.2.1 0⟩

/-- C17: `Encode(nil)` and `Encode("")` are both the single byte 64, and a nil item of a
list contributes exactly the byte 64 to the encoding of the list. -/
theorem Encode_nil_empty_string (pow256 : Nat) (xs ys : List Obj) :
    (Encode pow256 .nil).map Fin.val = [64] ∧
    Encode pow256 .nil = Encode pow256 (.string []) ∧
    Encode pow256 .nil = Encode pow256 (.bytes []) ∧
    Encode pow256 (.slice (xs ++ .nil :: ys))
      = WriteSliceHeader (xs ++ .nil :: ys).length
        ++ ((xs.map (Encode pow256)).flatten ++ 64 :: (ys.map (Encode pow256)).flatten) := by
  refine ⟨rfl, rfl, rfl, ?_⟩
  rw [Encode_slice, EncodeAll_eq_flatten]
  simp only [List.map_append, List.map_cons, List.flatten_append, List.flatten_cons]
  rfl

/-- C18: for every arbitrary-precision integer `x`, `Encode(x)` is `Encode` of the decimal
text of `x` as a byte string; the text of `x >= 0` is made of ASCII digits that denote `x`,
the text of `x < 0` is `-` followed by the digits of `-x`; the first byte of `Encode(x)` is
a byte-string tag (64 to 127); and for `0 <= x < 2^64` the result differs from `Encode` of
the same number as an unsigned 64-bit integer. -/
theorem Encode_bigInt_string_coded (pow256 : Nat) (x : Int) :
    Encode pow256 (.bigInt (some x)) = Encode pow256 (.string (bigString (some x))) ∧
    Encode pow256 (.bigInt (some x)) = Encode pow256 (.bytes (bigString (some x))) ∧
    (0 ≤ x → decimalValue (bigString (some x)) = x.toNat ∧
      ∀ d ∈ bigString (some x), 48 ≤ d.val ∧ d.val ≤ 57) ∧
    (x < 0 → ∃ digits, bigString (some x) = 45 :: digits ∧ decimalValue digits = x.natAbs ∧
      ∀ d ∈ digits, 48 ≤ d.val ∧ d.val ≤ 57) ∧
    (∃ tag rest, Encode pow256 (.bigInt (some x)) = tag :: rest ∧ 64 ≤ tag.val ∧
      tag.val < 128) ∧
    (0 ≤ x → x < 2 ^ 64 →
      Encode pow256 (.bigInt (some x)) ≠ Encode pow256 (.uint64 x.toNat)) := by
  have hdig := decimalDigits_spec (x.natAbs + 1) x.natAbs (by omega)
  have henc : Encode pow256 (.bigInt (some x)) = encodeString (bigString (some x)) := by
    simp [Encode]
  refine ⟨by simp [Encode], by simp [Encode], ?_, ?_, ?_, ?_⟩
  · intro hx
    have hb : bigString (some x) = decimalDigits (x.natAbs + 1) x.natAbs := by
      simp only [bigString]
      rw [if_neg (by omega)]
    rw [hb]
    exact ⟨by rw [hdig.1]; omega, hdig.2.1⟩
  · intro hx
    refine ⟨decimalDigits (x.natAbs + 1) x.natAbs, ?_, hdig.1, hdig.2.1⟩
    simp only [bigString]
    rw [if_pos hx]
  · rw [henc]
    exact encodeString_head _
  · intro h0 h64 heq
    obtain ⟨tag, rest, ht, h1, _⟩ := encodeString_head (bigString (some x))
    obtain ⟨tag2, rest2, ht2, h2⟩ := encodeUint_head pow256 x.toNat (by omega)
    rw [henc, Encode_uint64, ht, ht2] at heq
    have : tag = tag2 := (List.cons.inj heq).1
    rw [this] at h1
    omega

/-- Witness of `Encode_bigInt_string_coded` at `x = 5`: the text `5` under the tag 65. -/
theorem Encode_bigInt_string_coded_witness :
    (Encode pow256Amd64 (.bigInt (some 5))).map Fin.val = [65, 53] ∧
    Encode pow256Amd64 (.bigInt (some 5)) ≠ Encode pow256Amd64 (.uint64 5) :=
  ⟨by decide,
    (Encode_bigInt_string_coded pow256Amd64 5).2.2.2.2.2 (by decide) (by decide)⟩

/-- C19: for every value `v` of the value model in which no list has 56 or more items, and
all byte sequences `p` and `r`, `Decode(p ++ Encode(v) ++ r, len(p))` returns, with the same
value as `Decode(Encode(v), 0)` and the next position `len(p) + len(Encode(v))`. -/
theorem Decode_Encode_in_context (pow256 : Nat) (v : Obj) (p r spare spare0 : List Byte)
    (hv : v.isValue = true) (hs : v.shortLists = true)
    (hlen : (p ++ Encode pow256 v ++ r).length < 2 ^ 64) :
    ∃ o : Obj,
      Decode ⟨p ++ Encode pow256 v ++ r, spare⟩ p.length
        = .ok (o, p.length + (Encode pow256 v).length) ∧
      Decode ⟨Encode pow256 v, spare0⟩ 0 = .ok (o, (Encode pow256 v).length) := by
  refine ⟨v.decoded, Decode_Encode_at pow256 v p r spare hv hs hlen, ?_⟩
  have h := Decode_Encode_at pow256 v [] [] spare0 hv hs
    (by simp only [List.length_append, List.length_nil] at hlen ⊢; omega)
  simpa using h

/-- Witness of `Decode_Encode_in_context`: a list between two bytes. -/
theorem Decode_Encode_in_context_witness :
    ∃ o : Obj,
      Decode ⟨[200] ++ Encode pow256Amd64 (.slice [.uint64 1024, .bytes [1]]) ++ [201], []⟩
          ([200] : List Byte).length
        = .ok (o, ([200] : List Byte).length
            + (Encode pow256Amd64 (.slice [.uint64 1024, .bytes [1]])).length) ∧
      Decode ⟨Encode pow256Amd64 (.slice [.uint64 1024, .bytes [1]]), []⟩ 0
        = .ok (o, (Encode pow256Amd64 (.slice [.uint64 1024, .bytes [1]])).length) :=
  Decode_Encode_in_context pow256Amd64 (.slice [.uint64 1024, .bytes [1]]) [200] [201] [] []
    rfl rfl (by decide)

/-- C20, as stated, fails: on a buffer of length 1 and capacity 2 that holds the tag 65 (a
byte string of one byte), `Decode` returns the byte of the spare capacity and the next
position 2, past the length of the buffer. -/
theorem Decode_past_len_counterexample :
    Decode ⟨[65], [7]⟩ 0 = .ok (.bytes [7], 2) ∧ ¬ (2 ≤ (ByteSlice.mk [65] [7]).len) :=
  ⟨rfl, by decide⟩

/-- C20, amended: whenever `Decode(buffer, pos)` returns `(value, next)`, `pos` is inside the
buffer and `pos < next <= cap(buffer)`, and `next <= len(buffer)` when the buffer has no
spare capacity; every call of `Decode` that returns ends at a larger position than it
started; and the call nests at most `len(buffer) - pos` calls. -/
theorem Decode_progress_within_cap (data : ByteSlice) (pos : Nat) (o : Obj) (next : Nat)
    (hlen : data.len < 2 ^ 63) (h : Decode data pos = .ok (o, next)) :
    pos < data.len ∧ pos < next ∧ next ≤ data.cap ∧
    (data.spare = [] → next ≤ data.len) ∧
    (∀ (fuel q : Nat) (o1 : Obj) (n1 : Nat),
      DecodeAux fuel data q = .ok (o1, n1) → q < n1) ∧
    DecodeAux (data.len - pos) data pos = .ok (o, next) := by
  have hcap := DecodeAux_next_le_cap data hlen _ pos o next h
  have hpos := DecodeAux_ok_pos_lt data _ pos _ h
  refine ⟨hpos, DecodeAux_progress data hlen _ pos o next h, hcap, ?_,
    DecodeAux_progress data hlen, DecodeAux_ok_fuel data hlen _ pos _ h _ (by omega)⟩
  intro hsp
  have : data.cap = data.len := by simp [ByteSlice.cap, ByteSlice.len, hsp]
  omega

/-- Witness of `Decode_progress_within_cap` on a list of two items. -/
theorem Decode_progress_within_cap_witness :
    (0 : Nat) < 3 ∧ 3 ≤ (ByteSlice.mk [130, 5, 6] []).len ∧
    DecodeAux 3 ⟨[130, 5, 6], []⟩ 0 = .ok (.slice [.uint8 5, .uint8 6], 3) :=
  have h := Decode_progress_within_cap ⟨[130, 5, 6], []⟩ 0 (.slice [.uint8 5, .uint8 6]) 3
    (by decide) rfl
  ⟨h.2.1, h.2.2.2.1 rfl, h.2.2.2.2.2⟩

end Ethutil
